import Mathlib

/-!
Shallow embedding of the CO2 fill-propagation engine
(`_single_source_co2_fill` in `src/co2_injection_simulation/velocity_model.py`)
together with theorems settling the frozen claims about it.

The embedding mirrors the Python/numpy semantics of the source:

* numpy array reads: an index `i` on an axis of size `n` wraps once when
  `-n ≤ i < 0` and raises `IndexError` when `i < -n` or `n ≤ i`;
* the heap of `heapq` is modelled as a list kept sorted by the
  lexicographic order on the pushed tuples `(depth, x, y, z)`, which is
  exactly the comparison `heapq` uses; popping the head is popping the
  minimum;
* Python exceptions are modelled with `Except`;
* the two `while` loops are modelled with an explicit fuel parameter;
  `run` always supplies a sufficient amount of fuel, and the theorem for
  the termination claim proves that this fuel is never exhausted.

Cell states are the numeric velocity constants of the repository
(`VELOCITY_CAPROCK` = Barrier, `VELOCITY_RESERVOIR` = FillableMedium,
`VELOCITY_CO2` = Filled).
-/

namespace CO2Fill

/-- Runtime failures of the Python code: `index` for `IndexError`,
`assertFail` for a failed `assert`, `value` for `ValueError`
(`np.argmin` on an empty array), `zeroDiv` for `ZeroDivisionError`,
and `fuel` for exhaustion of the explicit fuel of the embedding
(proved unreachable for the fuel `run` supplies). -/
inductive PyErr where
  | index
  | assertFail
  | value
  | zeroDiv
  | fuel
  deriving DecidableEq, Repr

/-- `VELOCITY_CAPROCK` from `__init__.py`: the Barrier cell state. -/
def VELOCITY_CAPROCK : Int := 2607

/-- `VELOCITY_RESERVOIR` from `__init__.py`: the FillableMedium cell state. -/
def VELOCITY_RESERVOIR : Int := 1500

/-- `VELOCITY_CO2` from `__init__.py`: the Filled cell state. -/
def VELOCITY_CO2 : Int := 300

/-- A 3D array of integers, as a total function on coordinates.
Only the values at coordinates inside the declared dimensions are
meaningful. -/
abbrev Grid := ℕ → ℕ → ℕ → Int

/-- numpy index normalization along one axis of size `n`:
a negative index wraps once, an index outside `[-n, n)` raises
`IndexError`. -/
def normIdx (n : ℕ) (i : Int) : Except PyErr ℕ :=
  if i < -(n : Int) ∨ (n : Int) ≤ i then .error .index
  else if i < 0 then .ok (i + n).toNat
  else .ok i.toNat

/-- A read `a[ix, iy, iz]` of a numpy array of shape `(nx, ny, nz)`. -/
def pyRead3 (g : Grid) (nx ny nz : ℕ) (ix iy iz : Int) : Except PyErr Int := do
  let x ← normIdx nx ix
  let y ← normIdx ny iy
  let z ← normIdx nz iz
  pure (g x y z)

/-- A read `a[ix, iy]` of a numpy array of shape `(nx, ny)`. -/
def pyRead2 (t : ℕ → ℕ → Int) (nx ny : ℕ) (ix iy : Int) : Except PyErr Int := do
  let x ← normIdx nx ix
  let y ← normIdx ny iy
  pure (t x y)

/-- A read `a[i]` of a one-dimensional numpy array. -/
def pyRead1 (l : List Int) (i : Int) : Except PyErr Int := do
  let k ← normIdx l.length i
  pure (l.getD k 0)

/-- A scheduler entry: the tuple `(depths[z], x, y, z)` pushed by the code. -/
abbrev Cand := Int × ℕ × ℕ × ℕ

/-- The comparison `heapq` uses on the pushed tuples: lexicographic on
`(depth, x, y, z)`. -/
def candLe (a b : Cand) : Bool :=
  decide (a.1 < b.1 ∨ (a.1 = b.1 ∧ (a.2.1 < b.2.1 ∨ (a.2.1 = b.2.1 ∧
    (a.2.2.1 < b.2.2.1 ∨ (a.2.2.1 = b.2.2.1 ∧ a.2.2.2 ≤ b.2.2.2))))))

/-- Insertion into the sorted-list model of the `heapq` min-heap. -/
def insertSorted (c : Cand) : List Cand → List Cand
  | [] => [c]
  | h :: t => if candLe c h then c :: h :: t else h :: insertSorted c t

/-- The mutable state of `_single_source_co2_fill`.

`grid` is `injection_matrix`, `visited` the boolean mask, `snaps` the
`snapshots` array, `snapCtr`/`cellsFilled` the two counters, `heap` the
scheduler, and `xi`/`yi`/`zi` the three Python variables of the same
names (note that the pop `_, xi, yi, zi = heappop(heap)` overwrites
them).

`lastPop` and `trace` are ghost instrumentation: they record the last
popped tuple and the `(xi, yi, zi)` triple at the head of each outer
iteration; no other field ever depends on them. -/
structure St where
  grid : Grid
  visited : ℕ → ℕ → ℕ → Bool
  snaps : Grid
  snapCtr : Int
  cellsFilled : ℕ
  heap : List Cand
  xi : ℕ
  yi : ℕ
  zi : ℕ
  lastPop : Option Cand
  trace : List (ℕ × ℕ × ℕ)

/-- The run-constant data: the dimensions `nx, ny, nz` of
`injection_matrix`, the `depths` array, and the precomputed
`snapshot_interval`. -/
structure Ctx where
  nx : ℕ
  ny : ℕ
  nz : ℕ
  depths : List Int
  interval : ℕ

/-- Write `v` at coordinate `(x, y, z)`. -/
def setCell (g : Grid) (x y z : ℕ) (v : Int) : Grid :=
  fun a b c => if a = x ∧ b = y ∧ c = z then v else g a b c

/-- `visited[xi, yi, zi] = True`. -/
def markVisited (s : St) (x y z : ℕ) : St :=
  { s with visited := fun a b c => if a = x ∧ b = y ∧ c = z then true else s.visited a b c }

/-- The inline `is_inside_bounds` of the source. -/
def isInside (ctx : Ctx) (ix iy iz : Int) : Bool :=
  decide (0 ≤ ix ∧ ix < (ctx.nx : Int) ∧ 0 ≤ iy ∧ iy < (ctx.ny : Int) ∧
    0 ≤ iz ∧ iz < (ctx.nz : Int))

/-- `SPREAD_DIRECTIONS` of the source, in source order. -/
def SPREAD_DIRECTIONS : List (Int × Int) :=
  [(-1, 0), (1, 0), (0, -1), (0, 1), (-1, -1), (-1, 1), (1, -1), (1, 1)]

/-- The fill rule (source lines 103–117).  `up` is the value the code read
at `injection_matrix[xi, yi, zi - 1]` just before. -/
def applyFill (ctx : Ctx) (s : St) (up : Int) (x y z : ℕ) : St :=
  if s.grid x y z = VELOCITY_RESERVOIR ∧ up ≠ VELOCITY_RESERVOIR then
    let s1 := { s with
      grid := setCell s.grid x y z VELOCITY_CO2,
      snaps := setCell s.snaps x y z s.snapCtr,
      cellsFilled := s.cellsFilled + 1 }
    if ctx.interval ≤ s1.cellsFilled then
      { s1 with snapCtr := s1.snapCtr + 1, cellsFilled := 0 }
    else s1
  else s

/-- The upward expansion loop (source lines 121–128): for each offset,
read `injection_matrix[xi+dx, yi+dy, zi-1]` (the read happens BEFORE the
bounds test, exactly as in the source) and push when the value is
`VELOCITY_RESERVOIR` and the neighbor is inside bounds. -/
def pushUps (ctx : Ctx) (g : Grid) (x y z : ℕ) :
    List (Int × Int) → List Cand → Bool → Except PyErr (List Cand × Bool)
  | [], heap, added => .ok (heap, added)
  | (dx, dy) :: rest, heap, added => do
    let v ← pyRead3 g ctx.nx ctx.ny ctx.nz ((x : Int) + dx) ((y : Int) + dy) ((z : Int) - 1)
    if v = VELOCITY_RESERVOIR ∧ isInside ctx ((x : Int) + dx) ((y : Int) + dy) ((z : Int) - 1) = true then do
      let d ← pyRead1 ctx.depths ((z : Int) - 1)
      pushUps ctx g x y z rest
        (insertSorted (d, ((x : Int) + dx).toNat, ((y : Int) + dy).toNat, z - 1) heap) true
    else
      pushUps ctx g x y z rest heap added

/-- The lateral expansion loop (source lines 129–134): push the
horizontal neighbor at the same `z` when its value is not
`VELOCITY_CAPROCK` and it is inside bounds (again the read precedes
the bounds test, as in the source). -/
def pushLats (ctx : Ctx) (g : Grid) (x y z : ℕ) :
    List (Int × Int) → List Cand → Except PyErr (List Cand)
  | [], heap => .ok heap
  | (dx, dy) :: rest, heap => do
    let v ← pyRead3 g ctx.nx ctx.ny ctx.nz ((x : Int) + dx) ((y : Int) + dy) (z : Int)
    if v ≠ VELOCITY_CAPROCK ∧ isInside ctx ((x : Int) + dx) ((y : Int) + dy) (z : Int) = true then do
      let d ← pyRead1 ctx.depths (z : Int)
      pushLats ctx g x y z rest
        (insertSorted (d, ((x : Int) + dx).toNat, ((y : Int) + dy).toNat, z) heap)
    else
      pushLats ctx g x y z rest heap

/-- Processing of a popped candidate that survived the visited and
bounds tests (source lines 100–134): mark visited, apply the fill rule,
then expand upward and, when no upward neighbor was pushed, laterally. -/
def processCell (ctx : Ctx) (s : St) (x y z : ℕ) : Except PyErr St := do
  let s1 := markVisited s x y z
  let up ← pyRead3 s1.grid ctx.nx ctx.ny ctx.nz (x : Int) (y : Int) ((z : Int) - 1)
  let s2 := applyFill ctx s1 up x y z
  let (h1, added) ← pushUps ctx s2.grid x y z ((0, 0) :: SPREAD_DIRECTIONS) s2.heap false
  if added then
    .ok { s2 with heap := h1 }
  else do
    let h2 ← pushLats ctx s2.grid x y z SPREAD_DIRECTIONS h1
    .ok { s2 with heap := h2 }

/-- The effect of the pop `_, xi, yi, zi = heappop(heap)`: remove the
head of the scheduler and overwrite `xi`, `yi`, `zi` with the popped
coordinates (the ghost `lastPop` records the popped tuple). -/
def popState (s : St) (d : Int) (x y z : ℕ) (rest : List Cand) : St :=
  { s with heap := rest, xi := x, yi := y, zi := z, lastPop := some (d, x, y, z) }

/-- The inner `while heap:` loop (source lines 88–134), with explicit
fuel.  The pop overwrites `xi`, `yi`, `zi` — also for candidates that
are then discarded as already visited — exactly as the destructuring
assignment of the source does. -/
def innerF (ctx : Ctx) : ℕ → St → Except PyErr St
  | 0, _ => .error .fuel
  | fuel + 1, s =>
    match s.heap with
    | [] => .ok s
    | (d, x, y, z) :: rest =>
      let s1 := popState s d x y z rest
      if s1.visited x y z = true then innerF ctx fuel s1
      else if ¬ (x < ctx.nx ∧ y < ctx.ny ∧ z < ctx.nz) then innerF ctx fuel s1
      else
        match processCell ctx s1 x y z with
        | .error e => .error e
        | .ok s2 => innerF ctx fuel s2

/-- All in-bounds coordinates, as a list. -/
def allCellsList (nx ny nz : ℕ) : List (ℕ × ℕ × ℕ) :=
  (List.range nx).flatMap fun x =>
    (List.range ny).flatMap fun y =>
      (List.range nz).map fun z => (x, y, z)

/-- The number of in-bounds cells not yet visited (the measure that
bounds the remaining work). -/
def unvis (ctx : Ctx) (s : St) : ℕ :=
  (allCellsList ctx.nx ctx.ny ctx.nz).countP fun c => ! s.visited c.1 c.2.1 c.2.2

/-- Fuel sufficient for the inner loop: every iteration either consumes
one heap entry without pushing, or visits a new cell and pushes at most
17 entries. -/
def innerFuel (ctx : Ctx) (s : St) : ℕ :=
  s.heap.length + 18 * unvis ctx s + 1

/-- Fuel sufficient for the outer loop: every iteration either visits a
new cell or increments `zi`. -/
def outerFuel (ctx : Ctx) (s : St) : ℕ :=
  (ctx.nz + 1) * unvis ctx s + (ctx.nz - s.zi) + 1

/-- The state at the head of an outer iteration after the seed push
(source lines 83–85): a fresh scheduler holding only the candidate
`(depths[zi], xi, yi, zi)` built from the CURRENT variable values
(which after the first iteration are the coordinates of the last popped
candidate, because the pop overwrote them).  The ghost `trace` records
the `(xi, yi, zi)` triple of the iteration head. -/
def seedSt (s : St) (d : Int) : St :=
  { s with heap := insertSorted (d, s.xi, s.yi, s.zi) [],
           trace := s.trace ++ [(s.xi, s.yi, s.zi)] }

/-- The state at the head of an outer iteration when the seed candidate
is out of bounds: a fresh empty scheduler. -/
def noseedSt (s : St) : St :=
  { s with heap := [], trace := s.trace ++ [(s.xi, s.yi, s.zi)] }

/-- The outer `while zi < nz:` loop (source lines 80–137): create a
fresh scheduler, seed it at the current values of `(xi, yi, zi)` when
inside bounds, run the inner loop, then increment `zi`. -/
def outerF (ctx : Ctx) : ℕ → St → Except PyErr St
  | 0, _ => .error .fuel
  | fuel + 1, s =>
    if s.zi < ctx.nz then
      match (if isInside ctx (s.xi : Int) (s.yi : Int) (s.zi : Int) = true then do
               let d ← pyRead1 ctx.depths (s.zi : Int)
               .ok (seedSt s d)
             else .ok (noseedSt s) : Except PyErr St) with
      | .error e => .error e
      | .ok s1 =>
        match innerF ctx (innerFuel ctx s1) s1 with
        | .error e => .error e
        | .ok s2 => outerF ctx fuel { s2 with zi := s2.zi + 1 }
    else .ok s

/-- Helper for `argminAbs`: current index `i`, best index `best`, best
absolute difference `bestAbs`; `np.argmin` keeps the FIRST minimum. -/
def argminAbsAux (t : Int) : List Int → ℕ → ℕ → ℕ → ℕ
  | [], _, best, _ => best
  | v :: rest, i, best, bestAbs =>
    if (v - t).natAbs < bestAbs then argminAbsAux t rest (i + 1) i (v - t).natAbs
    else argminAbsAux t rest (i + 1) best bestAbs

/-- `np.argmin(np.abs(depths - t))`: index of the first smallest
absolute difference. -/
def argminAbs (l : List Int) (t : Int) : ℕ :=
  match l with
  | [] => 0
  | v :: rest => argminAbsAux t rest 1 0 (v - t).natAbs

/-- The run-constant context: dimensions of `injection_matrix`, the
depth axis, and `snapshot_interval = max(1, n_total_reservoir_cells //
total_snapshots)` (source lines 35–36). -/
def runCtx (g : Grid) (nx ny nz : ℕ) (depths : List Int) (totalSnapshots : ℕ) : Ctx :=
  ⟨nx, ny, nz, depths,
    max 1 (((allCellsList nx ny nz).countP
      fun c => g c.1 c.2.1 c.2.2 == VELOCITY_RESERVOIR) / totalSnapshots)⟩

/-- The state before the outer loop: unvisited mask, all-`-1`
snapshots grid, zero counters, empty scheduler and the source
coordinates in `(xi, yi, zi)` (source lines 32–45 and 77–78). -/
def initSt (g : Grid) (sx sy zi : ℕ) : St :=
  { grid := g, visited := fun _ _ _ => false, snaps := fun _ _ _ => (-1 : Int),
    snapCtr := 0, cellsFilled := 0, heap := [], xi := sx, yi := sy, zi := zi,
    lastPop := none, trace := [] }

/-- `_single_source_co2_fill`.  Faithful to the source order:
count the reservoir cells and compute `snapshot_interval` (a zero
`total_snapshots` raises `ZeroDivisionError`), read
`topography[source]`, derive the start index `zi` with `np.argmin`
(empty `depths` raises `ValueError`), check the two `assert`
statements, then run the outer loop from the source coordinates. -/
def run (g : Grid) (nx ny nz : ℕ) (topo : ℕ → ℕ → Int) (depths : List Int)
    (sx sy : ℕ) (totalSnapshots : ℕ) : Except PyErr St := do
  if totalSnapshots = 0 then .error .zeroDiv else
  let ctx : Ctx := runCtx g nx ny nz depths totalSnapshots
  let start ← pyRead2 topo nx ny (sx : Int) (sy : Int)
  if depths = [] then .error .value else
  let zi := argminAbs depths start + 1
  let v1 ← pyRead3 g nx ny nz (sx : Int) (sy : Int) (zi : Int)
  if v1 ≠ VELOCITY_RESERVOIR then .error .assertFail else
  let v2 ← pyRead3 g nx ny nz (sx : Int) (sy : Int) ((zi : Int) - 1)
  if v2 ≠ VELOCITY_CAPROCK then .error .assertFail else
  outerF ctx (outerFuel ctx (initSt g sx sy zi)) (initSt g sx sy zi)

/-- The error of a run result, when the run raised. -/
def errOf (r : Except PyErr St) : Option PyErr :=
  match r with
  | .ok _ => none
  | .error e => some e

/-- The ghost trace of a run result, when the run completed. -/
def traceOf (r : Except PyErr St) : Option (List (ℕ × ℕ × ℕ)) :=
  match r with
  | .ok s => some s.trace
  | .error _ => none

/-- The recorded fill order at one coordinate, when the run completed. -/
def snapsAt (r : Except PyErr St) (x y z : ℕ) : Option Int :=
  match r with
  | .ok s => some (s.snaps x y z)
  | .error _ => none

/-- The final grid value at one coordinate, when the run completed. -/
def gridAt (r : Except PyErr St) (x y z : ℕ) : Option Int :=
  match r with
  | .ok s => some (s.grid x y z)
  | .error _ => none

end CO2Fill

namespace CO2Fill

/-! ### Concrete inputs used by witnesses and counterexamples -/

/-- A 3 by 3 by 4 grid: reservoir cells at `(1,1,1)`, `(0,0,2)` and
`(1,1,3)`, caprock elsewhere.  With source `(1, 1)` and depth axis
`[0, 1, 2, 3]` the wavefront rises from `(1,1,3)` diagonally to
`(0,0,2)` and on to `(1,1,1)`, so the last popped candidate differs
from the source column. -/
def gA : Grid := fun x y z =>
  if x = 1 ∧ y = 1 ∧ z = 1 then VELOCITY_RESERVOIR
  else if x = 0 ∧ y = 0 ∧ z = 2 then VELOCITY_RESERVOIR
  else if x = 1 ∧ y = 1 ∧ z = 3 then VELOCITY_RESERVOIR
  else VELOCITY_CAPROCK

def topoA : ℕ → ℕ → Int := fun _ _ => 2

/-- The spec's own test scenario: a 1 by 1 by 5 column
`[FillableMedium, Barrier, FillableMedium, FillableMedium,
FillableMedium]` with the source at its only column. -/
def gB : Grid := fun x y z =>
  if x = 0 ∧ y = 0 ∧ z = 0 then VELOCITY_RESERVOIR
  else if x = 0 ∧ y = 0 ∧ z = 1 then VELOCITY_CAPROCK
  else VELOCITY_RESERVOIR

def topoB : ℕ → ℕ → Int := fun _ _ => 1

/-- A 3 by 3 by 3 grid with one reservoir cell under caprock at the
source column, paired below with the non-monotonic depth axis
`[5, 3, 7]`. -/
def gC : Grid := fun x y z =>
  if x = 1 ∧ y = 1 ∧ z = 2 then VELOCITY_RESERVOIR
  else VELOCITY_CAPROCK

def topoC : ℕ → ℕ → Int := fun _ _ => 3

/-- An all-caprock grid: its source column violates the
source-in-reservoir assertion. -/
def gD : Grid := fun _ _ _ => VELOCITY_CAPROCK

def topoD : ℕ → ℕ → Int := fun _ _ => 0

/-- A small context used to instantiate step-level theorems. -/
def ctxW : Ctx := ⟨3, 3, 4, [0, 1, 2, 3], 1⟩

end CO2Fill

/-! ### Evaluation lemmas for the numpy read model and the scheduler -/

namespace CO2Fill

@[simp] theorem ok_bind {α β : Type} (a : α) (f : α → Except PyErr β) :
    (Except.ok a >>= f) = f a := rfl

@[simp] theorem error_bind {α β : Type} (e : PyErr) (f : α → Except PyErr β) :
    ((Except.error e : Except PyErr α) >>= f) = Except.error e := rfl

theorem normIdx_nat {n k : ℕ} (h : k < n) : normIdx n (k : Int) = .ok k := by
  unfold normIdx
  rw [if_neg (by omega), if_neg (by omega)]
  simp

theorem normIdx_neg_one {n : ℕ} (h : 0 < n) : normIdx n (-1) = .ok (n - 1) := by
  unfold normIdx
  rw [if_neg (by omega), if_pos (by omega)]
  congr 1
  omega

theorem normIdx_hi {n : ℕ} {i : Int} (h : (n : Int) ≤ i) : normIdx n i = .error .index := by
  unfold normIdx
  rw [if_pos (Or.inr h)]

theorem normIdx_isOk {n : ℕ} {i : Int} {k : ℕ} (h : normIdx n i = .ok k) : k < n := by
  unfold normIdx at h
  split at h
  · exact absurd h (by simp)
  · split at h
    · simp only [Except.ok.injEq] at h
      omega
    · simp only [Except.ok.injEq] at h
      omega

theorem normIdx_error_eq {n : ℕ} {i : Int} {e : PyErr} (h : normIdx n i = .error e) :
    e = .index := by
  unfold normIdx at h
  split at h
  · simpa using h.symm
  · split at h <;> simp at h

theorem pyRead3_nat {g : Grid} {nx ny nz x y z : ℕ} (hx : x < nx) (hy : y < ny)
    (hz : z < nz) : pyRead3 g nx ny nz (x : Int) (y : Int) (z : Int) = .ok (g x y z) := by
  simp [pyRead3, normIdx_nat hx, normIdx_nat hy, normIdx_nat hz]

/-- The read of the buoyancy-upward neighbor `injection_matrix[x, y, z-1]`:
for `z ≥ 1` it is the exact upward neighbor; for `z = 0` the numpy index
`-1` wraps to the DEEPEST layer `nz - 1`. -/
theorem pyRead3_up {g : Grid} {nx ny nz x y z : ℕ} (hx : x < nx) (hy : y < ny)
    (hz : z < nz) :
    pyRead3 g nx ny nz (x : Int) (y : Int) ((z : Int) - 1) =
      .ok (g x y (if z = 0 then nz - 1 else z - 1)) := by
  rcases Nat.eq_zero_or_pos z with h0 | h0
  · subst h0
    simp only [if_pos rfl]
    have he : ((0 : ℕ) : Int) - 1 = -1 := by omega
    rw [he]
    simp [pyRead3, normIdx_nat hx, normIdx_nat hy, normIdx_neg_one (by omega : 0 < nz)]
  · have he : (z : Int) - 1 = ((z - 1 : ℕ) : Int) := by omega
    rw [he, if_neg (by omega)]
    exact pyRead3_nat hx hy (by omega)

theorem pyRead1_nat {l : List Int} {k : ℕ} (h : k < l.length) :
    pyRead1 l (k : Int) = .ok (l.getD k 0) := by
  simp [pyRead1, normIdx_nat h]

theorem pyRead3_error_eq {g : Grid} {nx ny nz : ℕ} {ix iy iz : Int} {e : PyErr}
    (h : pyRead3 g nx ny nz ix iy iz = .error e) : e = .index := by
  unfold pyRead3 at h
  cases hx : normIdx nx ix with
  | error ex =>
    rw [hx] at h
    simp only [error_bind, Except.error.injEq] at h
    rw [← h]
    exact normIdx_error_eq hx
  | ok x =>
    rw [hx] at h
    simp only [ok_bind] at h
    cases hy : normIdx ny iy with
    | error ey =>
      rw [hy] at h
      simp only [error_bind, Except.error.injEq] at h
      rw [← h]
      exact normIdx_error_eq hy
    | ok y =>
      rw [hy] at h
      simp only [ok_bind] at h
      cases hz : normIdx nz iz with
      | error ez =>
        rw [hz] at h
        simp only [error_bind, Except.error.injEq] at h
        rw [← h]
        exact normIdx_error_eq hz
      | ok z =>
        rw [hz] at h
        simp at h

theorem pyRead1_error_eq {l : List Int} {i : Int} {e : PyErr}
    (h : pyRead1 l i = .error e) : e = .index := by
  unfold pyRead1 at h
  cases hk : normIdx l.length i with
  | error ek =>
    rw [hk] at h
    simp only [error_bind, Except.error.injEq] at h
    rw [← h]
    exact normIdx_error_eq hk
  | ok k =>
    rw [hk] at h
    simp at h

theorem mem_insertSorted {a c : Cand} {l : List Cand} :
    a ∈ insertSorted c l ↔ a = c ∨ a ∈ l := by
  induction l with
  | nil => simp [insertSorted]
  | cons h t ih =>
    unfold insertSorted
    split
    · simp
    · simp only [List.mem_cons, ih]
      tauto

theorem insertSorted_perm (c : Cand) (l : List Cand) :
    List.Perm (insertSorted c l) (c :: l) := by
  induction l with
  | nil => simp [insertSorted]
  | cons h t ih =>
    unfold insertSorted
    split
    · exact List.Perm.refl _
    · exact List.Perm.trans (List.Perm.cons h ih) (List.Perm.swap c h t)

theorem length_insertSorted (c : Cand) (l : List Cand) :
    (insertSorted c l).length = l.length + 1 := by
  induction l with
  | nil => rfl
  | cons h t ih =>
    unfold insertSorted
    split
    · rfl
    · simp [ih]

end CO2Fill

namespace CO2Fill

/-! ### Counting lemmas for the unvisited-cells measure -/

theorem countP_le_of_imp {α : Type} {p q : α → Bool} :
    ∀ {l : List α}, (∀ a ∈ l, p a = true → q a = true) → l.countP p ≤ l.countP q := by
  intro l
  induction l with
  | nil => intro _; simp
  | cons h t ih =>
    intro himp
    have ht := ih fun a ha => himp a (List.mem_cons_of_mem h ha)
    rw [List.countP_cons, List.countP_cons]
    by_cases hp : p h = true
    · rw [if_pos hp, if_pos (himp h (List.mem_cons_self h t) hp)]
      omega
    · rw [if_neg hp]
      split <;> omega

theorem countP_lt_of_mem {α : Type} {p q : α → Bool} {l : List α} {c : α}
    (hc : c ∈ l) (hpc : p c = false) (hqc : q c = true)
    (himp : ∀ a ∈ l, p a = true → q a = true) : l.countP p < l.countP q := by
  induction l with
  | nil => cases hc
  | cons h t ih =>
    rw [List.countP_cons, List.countP_cons]
    rcases List.mem_cons.mp hc with rfl | hct
    · have ht := countP_le_of_imp (p := p) (q := q)
        (fun a ha => himp a (List.mem_cons_of_mem c ha))
      rw [if_neg (by simp [hpc]), if_pos hqc]
      omega
    · have hlt := ih hct fun a ha => himp a (List.mem_cons_of_mem h ha)
      by_cases hp : p h = true
      · rw [if_pos hp, if_pos (himp h (List.mem_cons_self h t) hp)]
        omega
      · rw [if_neg hp]
        split <;> omega

theorem countP_pos_of_mem {α : Type} {p : α → Bool} {l : List α} {c : α}
    (hc : c ∈ l) (hpc : p c = true) : 0 < l.countP p := by
  induction l with
  | nil => cases hc
  | cons h t ih =>
    rw [List.countP_cons]
    rcases List.mem_cons.mp hc with rfl | hct
    · rw [if_pos hpc]
      omega
    · have := ih hct
      split <;> omega

theorem mem_allCellsList {nx ny nz x y z : ℕ} :
    (x, y, z) ∈ allCellsList nx ny nz ↔ x < nx ∧ y < ny ∧ z < nz := by
  simp only [allCellsList, List.mem_flatMap, List.mem_range, List.mem_map]
  constructor
  · rintro ⟨a, ha, b, hb, c, hc, he⟩
    obtain ⟨rfl, rfl, rfl⟩ : a = x ∧ b = y ∧ c = z := by
      refine ⟨congrArg Prod.fst he, ?_, ?_⟩
      · exact congrArg (fun t => t.2.1) he
      · exact congrArg (fun t => t.2.2) he
    exact ⟨ha, hb, hc⟩
  · rintro ⟨hx, hy, hz⟩
    exact ⟨x, hx, y, hy, z, hz, rfl⟩

/-- Marking an unvisited in-bounds cell strictly shrinks the
unvisited-cells measure. -/
theorem unvis_markVisited_lt {ctx : Ctx} {s : St} {x y z : ℕ}
    (hx : x < ctx.nx) (hy : y < ctx.ny) (hz : z < ctx.nz)
    (hv : s.visited x y z = false) :
    unvis ctx (markVisited s x y z) < unvis ctx s := by
  apply countP_lt_of_mem (c := (x, y, z)) (mem_allCellsList.mpr ⟨hx, hy, hz⟩)
  · simp [markVisited]
  · simp [hv]
  · intro a _ hpa
    simp only [Bool.not_eq_true'] at hpa ⊢
    simp only [markVisited] at hpa
    split at hpa
    · exact absurd hpa (by simp)
    · exact hpa

theorem unvis_le_of_visited_imp {ctx : Ctx} {s s2 : St}
    (h : ∀ a b c, s.visited a b c = true → s2.visited a b c = true) :
    unvis ctx s2 ≤ unvis ctx s := by
  apply countP_le_of_imp
  intro a _ hpa
  simp only [Bool.not_eq_true'] at hpa ⊢
  by_contra hcon
  simp only [Bool.not_eq_false] at hcon
  rw [h _ _ _ hcon] at hpa
  cases hpa

theorem unvis_pos {ctx : Ctx} {s : St} {x y z : ℕ}
    (hx : x < ctx.nx) (hy : y < ctx.ny) (hz : z < ctx.nz)
    (hv : s.visited x y z = false) : 0 < unvis ctx s :=
  countP_pos_of_mem (mem_allCellsList.mpr ⟨hx, hy, hz⟩) (by simp [hv])

end CO2Fill

namespace CO2Fill

/-! ### Structure lemmas for the expansion loops and `processCell` -/

@[simp] theorem markVisited_grid (s : St) (x y z : ℕ) :
    (markVisited s x y z).grid = s.grid := rfl

@[simp] theorem markVisited_heap (s : St) (x y z : ℕ) :
    (markVisited s x y z).heap = s.heap := rfl

@[simp] theorem markVisited_snaps (s : St) (x y z : ℕ) :
    (markVisited s x y z).snaps = s.snaps := rfl

theorem applyFill_visited (ctx : Ctx) (s : St) (up : Int) (x y z : ℕ) :
    (applyFill ctx s up x y z).visited = s.visited := by
  unfold applyFill
  split
  · dsimp only
    split <;> rfl
  · rfl

theorem applyFill_heap (ctx : Ctx) (s : St) (up : Int) (x y z : ℕ) :
    (applyFill ctx s up x y z).heap = s.heap := by
  unfold applyFill
  split
  · dsimp only
    split <;> rfl
  · rfl

/-- A candidate whose coordinates are inside the grid bounds. -/
def candInB (ctx : Ctx) (c : Cand) : Prop :=
  c.2.1 < ctx.nx ∧ c.2.2.1 < ctx.ny ∧ c.2.2.2 < ctx.nz

theorem pushUps_ok_length {ctx : Ctx} {g : Grid} {x y z : ℕ} :
    ∀ {offs : List (Int × Int)} {heap H : List Cand} {added A : Bool},
      pushUps ctx g x y z offs heap added = .ok (H, A) →
      H.length ≤ heap.length + offs.length := by
  intro offs
  induction offs with
  | nil =>
    intro heap H added A h
    simp only [pushUps, Except.ok.injEq, Prod.mk.injEq] at h
    rw [← h.1]
    simp
  | cons dd rest ih =>
    intro heap H added A h
    obtain ⟨dx, dy⟩ := dd
    simp only [pushUps] at h
    cases hv : pyRead3 g ctx.nx ctx.ny ctx.nz ((x : Int) + dx) ((y : Int) + dy) ((z : Int) - 1) with
    | error e => rw [hv] at h; simp at h
    | ok v =>
      rw [hv] at h
      simp only [ok_bind] at h
      split at h
      · cases hd : pyRead1 ctx.depths ((z : Int) - 1) with
        | error e => rw [hd] at h; simp at h
        | ok d =>
          rw [hd] at h
          simp only [ok_bind] at h
          have := ih h
          rw [length_insertSorted] at this
          simp only [List.length_cons]
          omega
      · have := ih h
        simp only [List.length_cons]
        omega

theorem pushUps_error_eq {ctx : Ctx} {g : Grid} {x y z : ℕ} :
    ∀ {offs : List (Int × Int)} {heap : List Cand} {added : Bool} {e : PyErr},
      pushUps ctx g x y z offs heap added = .error e → e = .index := by
  intro offs
  induction offs with
  | nil =>
    intro heap added e h
    simp [pushUps] at h
  | cons dd rest ih =>
    intro heap added e h
    obtain ⟨dx, dy⟩ := dd
    simp only [pushUps] at h
    cases hv : pyRead3 g ctx.nx ctx.ny ctx.nz ((x : Int) + dx) ((y : Int) + dy) ((z : Int) - 1) with
    | error e2 =>
      rw [hv] at h
      simp only [error_bind, Except.error.injEq] at h
      rw [← h]
      exact pyRead3_error_eq hv
    | ok v =>
      rw [hv] at h
      simp only [ok_bind] at h
      split at h
      · cases hd : pyRead1 ctx.depths ((z : Int) - 1) with
        | error e2 =>
          rw [hd] at h
          simp only [error_bind, Except.error.injEq] at h
          rw [← h]
          exact pyRead1_error_eq hd
        | ok d =>
          rw [hd] at h
          simp only [ok_bind] at h
          exact ih h
      · exact ih h

theorem pushUps_inB {ctx : Ctx} {g : Grid} {x y z : ℕ} :
    ∀ {offs : List (Int × Int)} {heap H : List Cand} {added A : Bool},
      pushUps ctx g x y z offs heap added = .ok (H, A) →
      (∀ c ∈ heap, candInB ctx c) → ∀ c ∈ H, candInB ctx c := by
  intro offs
  induction offs with
  | nil =>
    intro heap H added A h hh
    simp only [pushUps, Except.ok.injEq, Prod.mk.injEq] at h
    rw [← h.1]
    exact hh
  | cons dd rest ih =>
    intro heap H added A h hh
    obtain ⟨dx, dy⟩ := dd
    simp only [pushUps] at h
    cases hv : pyRead3 g ctx.nx ctx.ny ctx.nz ((x : Int) + dx) ((y : Int) + dy) ((z : Int) - 1) with
    | error e => rw [hv] at h; simp at h
    | ok v =>
      rw [hv] at h
      simp only [ok_bind] at h
      split at h
      · rename_i hcond
        cases hd : pyRead1 ctx.depths ((z : Int) - 1) with
        | error e => rw [hd] at h; simp at h
        | ok d =>
          rw [hd] at h
          simp only [ok_bind] at h
          refine ih h ?_
          intro c hc
          rcases mem_insertSorted.mp hc with rfl | hcm
          · have hin := hcond.2
            simp only [isInside, decide_eq_true_eq] at hin
            refine ⟨?_, ?_, ?_⟩ <;> simp only [candInB] <;> omega
          · exact hh c hcm
      · exact ih h hh

theorem pushLats_ok_length {ctx : Ctx} {g : Grid} {x y z : ℕ} :
    ∀ {offs : List (Int × Int)} {heap H : List Cand},
      pushLats ctx g x y z offs heap = .ok H →
      H.length ≤ heap.length + offs.length := by
  intro offs
  induction offs with
  | nil =>
    intro heap H h
    simp only [pushLats, Except.ok.injEq] at h
    rw [← h]
    simp
  | cons dd rest ih =>
    intro heap H h
    obtain ⟨dx, dy⟩ := dd
    simp only [pushLats] at h
    cases hv : pyRead3 g ctx.nx ctx.ny ctx.nz ((x : Int) + dx) ((y : Int) + dy) (z : Int) with
    | error e => rw [hv] at h; simp at h
    | ok v =>
      rw [hv] at h
      simp only [ok_bind] at h
      split at h
      · cases hd : pyRead1 ctx.depths (z : Int) with
        | error e => rw [hd] at h; simp at h
        | ok d =>
          rw [hd] at h
          simp only [ok_bind] at h
          have := ih h
          rw [length_insertSorted] at this
          simp only [List.length_cons]
          omega
      · have := ih h
        simp only [List.length_cons]
        omega

theorem pushLats_error_eq {ctx : Ctx} {g : Grid} {x y z : ℕ} :
    ∀ {offs : List (Int × Int)} {heap : List Cand} {e : PyErr},
      pushLats ctx g x y z offs heap = .error e → e = .index := by
  intro offs
  induction offs with
  | nil =>
    intro heap e h
    simp [pushLats] at h
  | cons dd rest ih =>
    intro heap e h
    obtain ⟨dx, dy⟩ := dd
    simp only [pushLats] at h
    cases hv : pyRead3 g ctx.nx ctx.ny ctx.nz ((x : Int) + dx) ((y : Int) + dy) (z : Int) with
    | error e2 =>
      rw [hv] at h
      simp only [error_bind, Except.error.injEq] at h
      rw [← h]
      exact pyRead3_error_eq hv
    | ok v =>
      rw [hv] at h
      simp only [ok_bind] at h
      split at h
      · cases hd : pyRead1 ctx.depths (z : Int) with
        | error e2 =>
          rw [hd] at h
          simp only [error_bind, Except.error.injEq] at h
          rw [← h]
          exact pyRead1_error_eq hd
        | ok d =>
          rw [hd] at h
          simp only [ok_bind] at h
          exact ih h
      · exact ih h

theorem pushLats_inB {ctx : Ctx} {g : Grid} {x y z : ℕ} :
    ∀ {offs : List (Int × Int)} {heap H : List Cand},
      pushLats ctx g x y z offs heap = .ok H →
      (∀ c ∈ heap, candInB ctx c) → ∀ c ∈ H, candInB ctx c := by
  intro offs
  induction offs with
  | nil =>
    intro heap H h hh
    simp only [pushLats, Except.ok.injEq] at h
    rw [← h]
    exact hh
  | cons dd rest ih =>
    intro heap H h hh
    obtain ⟨dx, dy⟩ := dd
    simp only [pushLats] at h
    cases hv : pyRead3 g ctx.nx ctx.ny ctx.nz ((x : Int) + dx) ((y : Int) + dy) (z : Int) with
    | error e => rw [hv] at h; simp at h
    | ok v =>
      rw [hv] at h
      simp only [ok_bind] at h
      split at h
      · rename_i hcond
        cases hd : pyRead1 ctx.depths (z : Int) with
        | error e => rw [hd] at h; simp at h
        | ok d =>
          rw [hd] at h
          simp only [ok_bind] at h
          refine ih h ?_
          intro c hc
          rcases mem_insertSorted.mp hc with rfl | hcm
          · have hin := hcond.2
            simp only [isInside, decide_eq_true_eq] at hin
            refine ⟨?_, ?_, ?_⟩ <;> simp only [candInB] <;> omega
          · exact hh c hcm
      · exact ih h hh

end CO2Fill

namespace CO2Fill

theorem processCell_error_eq {ctx : Ctx} {s : St} {x y z : ℕ} {e : PyErr}
    (h : processCell ctx s x y z = .error e) : e = .index := by
  unfold processCell at h
  dsimp only at h
  cases hu : pyRead3 (markVisited s x y z).grid ctx.nx ctx.ny ctx.nz (x : Int) (y : Int) ((z : Int) - 1) with
  | error e2 =>
    rw [hu] at h
    simp only [error_bind, Except.error.injEq] at h
    rw [← h]
    exact pyRead3_error_eq hu
  | ok up =>
    rw [hu] at h
    simp only [ok_bind] at h
    cases hp : pushUps ctx (applyFill ctx (markVisited s x y z) up x y z).grid x y z
        ((0, 0) :: SPREAD_DIRECTIONS) (applyFill ctx (markVisited s x y z) up x y z).heap false with
    | error e2 =>
      rw [hp] at h
      simp only [error_bind, Except.error.injEq] at h
      rw [← h]
      exact pushUps_error_eq hp
    | ok pr =>
      obtain ⟨h1, added⟩ := pr
      rw [hp] at h
      simp only [ok_bind] at h
      cases added with
      | true => simp at h
      | false =>
        simp only [Bool.false_eq_true, if_false] at h
        cases hl : pushLats ctx (applyFill ctx (markVisited s x y z) up x y z).grid x y z
            SPREAD_DIRECTIONS h1 with
        | error e2 =>
          rw [hl] at h
          simp only [error_bind, Except.error.injEq] at h
          rw [← h]
          exact pushLats_error_eq hl
        | ok h2 =>
          rw [hl] at h
          simp at h

/-- Every successful `processCell` yields the mark-and-fill state with
some heap: the fill portion is exactly `applyFill` applied to the value
the numpy read of `injection_matrix[x, y, z-1]` returns (wrapping to the
deepest layer when `z = 0`). -/
theorem processCell_ok_shape {ctx : Ctx} {s s2 : St} {x y z : ℕ}
    (hx : x < ctx.nx) (hy : y < ctx.ny) (hz : z < ctx.nz)
    (h : processCell ctx s x y z = .ok s2) :
    ∃ hp : List Cand, s2 = { applyFill ctx (markVisited s x y z)
      (s.grid x y (if z = 0 then ctx.nz - 1 else z - 1)) x y z with heap := hp } := by
  unfold processCell at h
  dsimp only at h
  rw [markVisited_grid, pyRead3_up hx hy hz] at h
  simp only [ok_bind] at h
  set sf := applyFill ctx (markVisited s x y z)
    (s.grid x y (if z = 0 then ctx.nz - 1 else z - 1)) x y z with hsf
  cases hp : pushUps ctx sf.grid x y z ((0, 0) :: SPREAD_DIRECTIONS) sf.heap false with
  | error e => rw [hp] at h; simp at h
  | ok pr =>
    obtain ⟨h1, added⟩ := pr
    rw [hp] at h
    simp only [ok_bind] at h
    cases added with
    | true =>
      simp only [if_true] at h
      exact ⟨h1, (Except.ok.injEq _ _ ▸ h).symm⟩
    | false =>
      simp only [Bool.false_eq_true, if_false] at h
      cases hl : pushLats ctx sf.grid x y z SPREAD_DIRECTIONS h1 with
      | error e => rw [hl] at h; simp at h
      | ok h2 =>
        rw [hl] at h
        simp only [ok_bind, Except.ok.injEq] at h
        exact ⟨h2, h.symm⟩

theorem processCell_visited {ctx : Ctx} {s s2 : St} {x y z : ℕ}
    (h : processCell ctx s x y z = .ok s2) :
    s2.visited = (markVisited s x y z).visited := by
  unfold processCell at h
  dsimp only at h
  cases hu : pyRead3 (markVisited s x y z).grid ctx.nx ctx.ny ctx.nz (x : Int) (y : Int) ((z : Int) - 1) with
  | error e2 => rw [hu] at h; simp at h
  | ok up =>
    rw [hu] at h
    simp only [ok_bind] at h
    cases hp : pushUps ctx (applyFill ctx (markVisited s x y z) up x y z).grid x y z
        ((0, 0) :: SPREAD_DIRECTIONS) (applyFill ctx (markVisited s x y z) up x y z).heap false with
    | error e2 => rw [hp] at h; simp at h
    | ok pr =>
      obtain ⟨h1, added⟩ := pr
      rw [hp] at h
      simp only [ok_bind] at h
      cases added with
      | true =>
        simp only [if_true, Except.ok.injEq] at h
        rw [← h]
        exact applyFill_visited ctx (markVisited s x y z) up x y z
      | false =>
        simp only [Bool.false_eq_true, if_false] at h
        cases hl : pushLats ctx (applyFill ctx (markVisited s x y z) up x y z).grid x y z
            SPREAD_DIRECTIONS h1 with
        | error e2 => rw [hl] at h; simp at h
        | ok h2 =>
          rw [hl] at h
          simp only [ok_bind, Except.ok.injEq] at h
          rw [← h]
          exact applyFill_visited ctx (markVisited s x y z) up x y z

theorem processCell_heap_len {ctx : Ctx} {s s2 : St} {x y z : ℕ}
    (h : processCell ctx s x y z = .ok s2) :
    s2.heap.length ≤ s.heap.length + 17 := by
  unfold processCell at h
  dsimp only at h
  cases hu : pyRead3 (markVisited s x y z).grid ctx.nx ctx.ny ctx.nz (x : Int) (y : Int) ((z : Int) - 1) with
  | error e2 => rw [hu] at h; simp at h
  | ok up =>
    rw [hu] at h
    simp only [ok_bind] at h
    have hfh : (applyFill ctx (markVisited s x y z) up x y z).heap = s.heap := by
      rw [applyFill_heap, markVisited_heap]
    cases hp : pushUps ctx (applyFill ctx (markVisited s x y z) up x y z).grid x y z
        ((0, 0) :: SPREAD_DIRECTIONS) (applyFill ctx (markVisited s x y z) up x y z).heap false with
    | error e2 => rw [hp] at h; simp at h
    | ok pr =>
      obtain ⟨h1, added⟩ := pr
      have hl1 : h1.length ≤ s.heap.length + 9 := by
        have := pushUps_ok_length hp
        rw [hfh] at this
        simpa using this
      rw [hp] at h
      simp only [ok_bind] at h
      cases added with
      | true =>
        simp only [if_true, Except.ok.injEq] at h
        rw [← h]
        simp only []
        omega
      | false =>
        simp only [Bool.false_eq_true, if_false] at h
        cases hl : pushLats ctx (applyFill ctx (markVisited s x y z) up x y z).grid x y z
            SPREAD_DIRECTIONS h1 with
        | error e2 => rw [hl] at h; simp at h
        | ok h2 =>
          have hl2 : h2.length ≤ h1.length + 8 := by
            have := pushLats_ok_length hl
            simpa using this
          rw [hl] at h
          simp only [ok_bind, Except.ok.injEq] at h
          rw [← h]
          simp only []
          omega

theorem processCell_inB {ctx : Ctx} {s s2 : St} {x y z : ℕ}
    (h : processCell ctx s x y z = .ok s2)
    (hh : ∀ c ∈ s.heap, candInB ctx c) : ∀ c ∈ s2.heap, candInB ctx c := by
  unfold processCell at h
  dsimp only at h
  cases hu : pyRead3 (markVisited s x y z).grid ctx.nx ctx.ny ctx.nz (x : Int) (y : Int) ((z : Int) - 1) with
  | error e2 => rw [hu] at h; simp at h
  | ok up =>
    rw [hu] at h
    simp only [ok_bind] at h
    have hfh : (applyFill ctx (markVisited s x y z) up x y z).heap = s.heap := by
      rw [applyFill_heap, markVisited_heap]
    cases hp : pushUps ctx (applyFill ctx (markVisited s x y z) up x y z).grid x y z
        ((0, 0) :: SPREAD_DIRECTIONS) (applyFill ctx (markVisited s x y z) up x y z).heap false with
    | error e2 => rw [hp] at h; simp at h
    | ok pr =>
      obtain ⟨h1, added⟩ := pr
      have hb1 : ∀ c ∈ h1, candInB ctx c := by
        refine pushUps_inB hp ?_
        rw [hfh]
        exact hh
      rw [hp] at h
      simp only [ok_bind] at h
      cases added with
      | true =>
        simp only [if_true, Except.ok.injEq] at h
        rw [← h]
        exact hb1
      | false =>
        simp only [Bool.false_eq_true, if_false] at h
        cases hl : pushLats ctx (applyFill ctx (markVisited s x y z) up x y z).grid x y z
            SPREAD_DIRECTIONS h1 with
        | error e2 => rw [hl] at h; simp at h
        | ok h2 =>
          rw [hl] at h
          simp only [ok_bind, Except.ok.injEq] at h
          rw [← h]
          exact pushLats_inB hl hb1

end CO2Fill

namespace CO2Fill

/-! ### Inner-loop lemmas -/

theorem innerF_zero (ctx : Ctx) (s : St) : innerF ctx 0 s = .error .fuel := rfl

theorem innerF_succ (ctx : Ctx) (n : ℕ) (s : St) :
    innerF ctx (n + 1) s =
      match s.heap with
      | [] => .ok s
      | (d, x, y, z) :: rest =>
        let s1 := popState s d x y z rest
        if s1.visited x y z = true then innerF ctx n s1
        else if ¬ (x < ctx.nx ∧ y < ctx.ny ∧ z < ctx.nz) then innerF ctx n s1
        else
          match processCell ctx s1 x y z with
          | .error e => .error e
          | .ok s2 => innerF ctx n s2 := rfl

@[simp] theorem popState_visited (s : St) (d : Int) (x y z : ℕ) (rest : List Cand) :
    (popState s d x y z rest).visited = s.visited := rfl

@[simp] theorem popState_heap (s : St) (d : Int) (x y z : ℕ) (rest : List Cand) :
    (popState s d x y z rest).heap = rest := rfl

@[simp] theorem popState_grid (s : St) (d : Int) (x y z : ℕ) (rest : List Cand) :
    (popState s d x y z rest).grid = s.grid := rfl

@[simp] theorem popState_snaps (s : St) (d : Int) (x y z : ℕ) (rest : List Cand) :
    (popState s d x y z rest).snaps = s.snaps := rfl

@[simp] theorem popState_xi (s : St) (d : Int) (x y z : ℕ) (rest : List Cand) :
    (popState s d x y z rest).xi = x := rfl

@[simp] theorem popState_yi (s : St) (d : Int) (x y z : ℕ) (rest : List Cand) :
    (popState s d x y z rest).yi = y := rfl

@[simp] theorem popState_zi (s : St) (d : Int) (x y z : ℕ) (rest : List Cand) :
    (popState s d x y z rest).zi = z := rfl

@[simp] theorem popState_lastPop (s : St) (d : Int) (x y z : ℕ) (rest : List Cand) :
    (popState s d x y z rest).lastPop = some (d, x, y, z) := rfl

@[simp] theorem popState_trace (s : St) (d : Int) (x y z : ℕ) (rest : List Cand) :
    (popState s d x y z rest).trace = s.trace := rfl

theorem applyFill_xi (ctx : Ctx) (s : St) (up : Int) (x y z : ℕ) :
    (applyFill ctx s up x y z).xi = s.xi := by
  unfold applyFill
  split
  · dsimp only
    split <;> rfl
  · rfl

theorem applyFill_yi (ctx : Ctx) (s : St) (up : Int) (x y z : ℕ) :
    (applyFill ctx s up x y z).yi = s.yi := by
  unfold applyFill
  split
  · dsimp only
    split <;> rfl
  · rfl

theorem applyFill_zi (ctx : Ctx) (s : St) (up : Int) (x y z : ℕ) :
    (applyFill ctx s up x y z).zi = s.zi := by
  unfold applyFill
  split
  · dsimp only
    split <;> rfl
  · rfl

theorem applyFill_lastPop (ctx : Ctx) (s : St) (up : Int) (x y z : ℕ) :
    (applyFill ctx s up x y z).lastPop = s.lastPop := by
  unfold applyFill
  split
  · dsimp only
    split <;> rfl
  · rfl

theorem applyFill_trace (ctx : Ctx) (s : St) (up : Int) (x y z : ℕ) :
    (applyFill ctx s up x y z).trace = s.trace := by
  unfold applyFill
  split
  · dsimp only
    split <;> rfl
  · rfl

theorem unvis_congr {ctx : Ctx} {s s2 : St} (h : s.visited = s2.visited) :
    unvis ctx s = unvis ctx s2 := by
  unfold unvis
  rw [h]

theorem unvis_popState (ctx : Ctx) (s : St) (d : Int) (x y z : ℕ) (rest : List Cand) :
    unvis ctx (popState s d x y z rest) = unvis ctx s := rfl

theorem innerF_ok_heap {ctx : Ctx} :
    ∀ (fuel : ℕ) (s sf : St), innerF ctx fuel s = .ok sf → sf.heap = [] := by
  intro fuel
  induction fuel with
  | zero =>
    intro s sf h
    rw [innerF_zero] at h
    cases h
  | succ n ih =>
    intro s sf h
    rw [innerF_succ] at h
    cases hh : s.heap with
    | nil =>
      rw [hh] at h
      simp only [Except.ok.injEq] at h
      rw [← h]
      exact hh
    | cons c0 rest =>
      obtain ⟨d, x, y, z⟩ := c0
      rw [hh] at h
      dsimp only at h
      split at h
      · exact ih _ _ h
      · split at h
        · exact ih _ _ h
        · split at h
          · cases h
          · exact ih _ _ h

/-- The inner loop only returns normally when its scheduler is empty at
entry (one unfolding step for the empty-scheduler case). -/
theorem innerF_nil {ctx : Ctx} {fuel : ℕ} {s sf : St} (hh : s.heap = [])
    (h : innerF ctx fuel s = .ok sf) : sf = s := by
  cases fuel with
  | zero => rw [innerF_zero] at h; cases h
  | succ n =>
    rw [innerF_succ, hh] at h
    simp only [Except.ok.injEq] at h
    exact h.symm

/-- The visited mask only grows during the inner loop. -/
theorem innerF_visited_mono {ctx : Ctx} :
    ∀ (fuel : ℕ) (s sf : St), innerF ctx fuel s = .ok sf →
      ∀ a b c, s.visited a b c = true → sf.visited a b c = true := by
  intro fuel
  induction fuel with
  | zero =>
    intro s sf h
    rw [innerF_zero] at h
    cases h
  | succ n ih =>
    intro s sf h
    rw [innerF_succ] at h
    cases hh : s.heap with
    | nil =>
      rw [hh] at h
      simp only [Except.ok.injEq] at h
      rw [← h]
      exact fun a b c hv => hv
    | cons c0 rest =>
      obtain ⟨d, x, y, z⟩ := c0
      rw [hh] at h
      dsimp only at h
      split at h
      · exact fun a b c hv => ih _ _ h a b c hv
      · split at h
        · exact fun a b c hv => ih _ _ h a b c hv
        · split at h
          · cases h
          · rename_i s2 hproc
            intro a b c hv
            refine ih _ _ h a b c ?_
            rw [processCell_visited hproc]
            simp only [markVisited, popState_visited]
            split
            · rfl
            · exact hv

theorem innerF_unvis_le {ctx : Ctx} {fuel : ℕ} {s sf : St}
    (h : innerF ctx fuel s = .ok sf) : unvis ctx sf ≤ unvis ctx s :=
  unvis_le_of_visited_imp (innerF_visited_mono fuel s sf h)

/-- Fuel sufficiency for the inner loop: with more fuel than
`heap.length + 18 * unvis` the inner loop cannot exhaust its fuel
(every iteration either drops one scheduler entry, or visits a new cell
and pushes at most 17 entries). -/
theorem innerF_ne_fuel {ctx : Ctx} :
    ∀ (fuel : ℕ) (s : St), s.heap.length + 18 * unvis ctx s < fuel →
      innerF ctx fuel s ≠ .error .fuel := by
  intro fuel
  induction fuel with
  | zero =>
    intro s hm
    omega
  | succ n ih =>
    intro s hm h
    rw [innerF_succ] at h
    revert h
    cases hh : s.heap with
    | nil => intro h; cases h
    | cons c0 rest =>
      obtain ⟨d, x, y, z⟩ := c0
      intro h
      dsimp only at h
      have hlen : s.heap.length = rest.length + 1 := by rw [hh]; rfl
      have hus : unvis ctx (popState s d x y z rest) = unvis ctx s := rfl
      have hls : (popState s d x y z rest).heap.length = rest.length := rfl
      split at h
      · refine ih (popState s d x y z rest) ?_ h
        rw [hus, hls]
        omega
      · split at h
        · refine ih (popState s d x y z rest) ?_ h
          rw [hus, hls]
          omega
        · rename_i hnv hin
          split at h
          · rename_i e hproc
            simp only [Except.error.injEq] at h
            rw [processCell_error_eq hproc] at h
            cases h
          · rename_i s2 hproc
            have hB : x < ctx.nx ∧ y < ctx.ny ∧ z < ctx.nz := not_not.mp hin
            have hv0 : (popState s d x y z rest).visited x y z = false := by
              revert hnv
              cases (popState s d x y z rest).visited x y z <;> simp
            have hu2 : unvis ctx s2 = unvis ctx (markVisited (popState s d x y z rest) x y z) :=
              unvis_congr (processCell_visited hproc)
            have hlt : unvis ctx (markVisited (popState s d x y z rest) x y z) <
                unvis ctx (popState s d x y z rest) :=
              unvis_markVisited_lt hB.1 hB.2.1 hB.2.2 hv0
            have hl2 : s2.heap.length ≤ rest.length + 17 := by
              have h17 := processCell_heap_len hproc
              rw [hls] at h17
              exact h17
            refine ih s2 ?_ h
            rw [hu2]
            rw [hus] at hlt
            omega

end CO2Fill

namespace CO2Fill

@[simp] theorem markVisited_xi (s : St) (x y z : ℕ) : (markVisited s x y z).xi = s.xi := rfl

@[simp] theorem markVisited_yi (s : St) (x y z : ℕ) : (markVisited s x y z).yi = s.yi := rfl

@[simp] theorem markVisited_zi (s : St) (x y z : ℕ) : (markVisited s x y z).zi = s.zi := rfl

@[simp] theorem markVisited_snapCtr (s : St) (x y z : ℕ) :
    (markVisited s x y z).snapCtr = s.snapCtr := rfl

@[simp] theorem markVisited_cellsFilled (s : St) (x y z : ℕ) :
    (markVisited s x y z).cellsFilled = s.cellsFilled := rfl

theorem processCell_zi {ctx : Ctx} {s s2 : St} {x y z : ℕ}
    (hx : x < ctx.nx) (hy : y < ctx.ny) (hz : z < ctx.nz)
    (h : processCell ctx s x y z = .ok s2) : s2.zi = s.zi := by
  obtain ⟨hp, rfl⟩ := processCell_ok_shape hx hy hz h
  show (applyFill ctx (markVisited s x y z) _ x y z).zi = s.zi
  rw [applyFill_zi, markVisited_zi]

/-- Candidates on the scheduler stay inside bounds and the running `zi`
stays below `nz` through the inner loop. -/
theorem innerF_inB_zi {ctx : Ctx} :
    ∀ (fuel : ℕ) (s sf : St), innerF ctx fuel s = .ok sf →
      (∀ c ∈ s.heap, candInB ctx c) → s.zi < ctx.nz → sf.zi < ctx.nz := by
  intro fuel
  induction fuel with
  | zero =>
    intro s sf h
    rw [innerF_zero] at h
    cases h
  | succ n ih =>
    intro s sf h hB hz
    rw [innerF_succ] at h
    revert h
    cases hh : s.heap with
    | nil =>
      intro h
      simp only [Except.ok.injEq] at h
      rw [← h]
      exact hz
    | cons c0 rest =>
      obtain ⟨d, x, y, z⟩ := c0
      intro h
      dsimp only at h
      have hc0 : candInB ctx (d, x, y, z) := hB _ (hh ▸ List.mem_cons_self _ _)
      have hrest : ∀ c ∈ rest, candInB ctx c := fun c hc =>
        hB c (hh ▸ List.mem_cons_of_mem _ hc)
      have hz1 : (popState s d x y z rest).zi < ctx.nz := hc0.2.2
      split at h
      · exact ih _ _ h hrest hz1
      · split at h
        · exact ih _ _ h hrest hz1
        · rename_i hnv hin
          split at h
          · cases h
          · rename_i s2 hproc
            have hB3 : x < ctx.nx ∧ y < ctx.ny ∧ z < ctx.nz := not_not.mp hin
            refine ih _ _ h (processCell_inB hproc hrest) ?_
            rw [processCell_zi hB3.1 hB3.2.1 hB3.2.2 hproc]
            exact hz1

/-- If the inner loop starts with exactly one scheduled candidate and
visits nothing new, then it ends with `zi` equal to that candidate's
`z` (the pop overwrote `zi` even though the candidate was discarded). -/
theorem innerF_stuck {ctx : Ctx} {fuel : ℕ} {s sf : St} {d : Int} {x y z : ℕ}
    (hh : s.heap = [(d, x, y, z)]) (h : innerF ctx fuel s = .ok sf)
    (hu : unvis ctx sf = unvis ctx s) : sf.zi = z := by
  cases fuel with
  | zero => rw [innerF_zero] at h; cases h
  | succ n =>
    rw [innerF_succ] at h
    revert h
    rw [hh]
    intro h
    dsimp only at h
    split at h
    · have := innerF_nil (s := popState s d x y z []) rfl h
      rw [this]
      rfl
    · split at h
      · have := innerF_nil (s := popState s d x y z []) rfl h
        rw [this]
        rfl
      · rename_i hnv hin
        split at h
        · cases h
        · rename_i s2 hproc
          exfalso
          have hB : x < ctx.nx ∧ y < ctx.ny ∧ z < ctx.nz := not_not.mp hin
          have hv0 : (popState s d x y z []).visited x y z = false := by
            revert hnv
            cases (popState s d x y z []).visited x y z <;> simp
          have hu2 : unvis ctx s2 = unvis ctx (markVisited (popState s d x y z []) x y z) :=
            unvis_congr (processCell_visited hproc)
          have hlt : unvis ctx (markVisited (popState s d x y z []) x y z) <
              unvis ctx (popState s d x y z []) :=
            unvis_markVisited_lt hB.1 hB.2.1 hB.2.2 hv0
          have hle := innerF_unvis_le h
          have hps : unvis ctx (popState s d x y z []) = unvis ctx s := rfl
          omega

/-- Generic preservation of a predicate on the mutated data
(`grid`, `snaps`, `snapCtr`, `cellsFilled`) through the inner loop. -/
theorem innerF_pres {ctx : Ctx} (P : St → Prop)
    (hFields : ∀ s t : St, s.grid = t.grid → s.snaps = t.snaps →
      s.snapCtr = t.snapCtr → s.cellsFilled = t.cellsFilled → P s → P t)
    (hProc : ∀ (s s2 : St) (x y z : ℕ), x < ctx.nx → y < ctx.ny → z < ctx.nz →
      s.visited x y z = false →
      processCell ctx s x y z = .ok s2 → P s → P s2) :
    ∀ (fuel : ℕ) (s sf : St), innerF ctx fuel s = .ok sf → P s → P sf := by
  intro fuel
  induction fuel with
  | zero =>
    intro s sf h
    rw [innerF_zero] at h
    cases h
  | succ n ih =>
    intro s sf h hP
    rw [innerF_succ] at h
    revert h
    cases hh : s.heap with
    | nil =>
      intro h
      simp only [Except.ok.injEq] at h
      rw [← h]
      exact hP
    | cons c0 rest =>
      obtain ⟨d, x, y, z⟩ := c0
      intro h
      dsimp only at h
      have hP1 : P (popState s d x y z rest) := hFields s _ rfl rfl rfl rfl hP
      split at h
      · exact ih _ _ h hP1
      · split at h
        · exact ih _ _ h hP1
        · rename_i hnv hin
          split at h
          · cases h
          · rename_i s2 hproc
            have hB : x < ctx.nx ∧ y < ctx.ny ∧ z < ctx.nz := not_not.mp hin
            have hv0 : (popState s d x y z rest).visited x y z = false := by
              revert hnv
              cases (popState s d x y z rest).visited x y z <;> simp
            exact ih _ _ h (hProc _ _ x y z hB.1 hB.2.1 hB.2.2 hv0 hproc hP1)

end CO2Fill

namespace CO2Fill

/-! ### Outer-loop lemmas -/

@[simp] theorem seedSt_visited (s : St) (d : Int) : (seedSt s d).visited = s.visited := rfl

@[simp] theorem seedSt_zi (s : St) (d : Int) : (seedSt s d).zi = s.zi := rfl

@[simp] theorem seedSt_heap (s : St) (d : Int) :
    (seedSt s d).heap = [(d, s.xi, s.yi, s.zi)] := rfl

@[simp] theorem noseedSt_visited (s : St) : (noseedSt s).visited = s.visited := rfl

@[simp] theorem noseedSt_zi (s : St) : (noseedSt s).zi = s.zi := rfl

@[simp] theorem noseedSt_heap (s : St) : (noseedSt s).heap = [] := rfl

theorem outerF_zero (ctx : Ctx) (s : St) : outerF ctx 0 s = .error .fuel := rfl

theorem outerF_done {ctx : Ctx} {n : ℕ} {s : St} (hzi : ¬ s.zi < ctx.nz) :
    outerF ctx (n + 1) s = .ok s := by
  unfold outerF
  rw [if_neg hzi]

theorem outerF_seed_ok {ctx : Ctx} {n : ℕ} {s : St} {d : Int}
    (hzi : s.zi < ctx.nz) (hin : isInside ctx (s.xi : Int) (s.yi : Int) (s.zi : Int) = true)
    (hd : pyRead1 ctx.depths (s.zi : Int) = .ok d) :
    outerF ctx (n + 1) s =
      match innerF ctx (innerFuel ctx (seedSt s d)) (seedSt s d) with
      | .error e => .error e
      | .ok s2 => outerF ctx n { s2 with zi := s2.zi + 1 } := by
  conv_lhs => rw [outerF]
  rw [if_pos hzi, hin, if_pos rfl, hd]
  simp only [ok_bind]

theorem outerF_seed_err {ctx : Ctx} {n : ℕ} {s : St} {e : PyErr}
    (hzi : s.zi < ctx.nz) (hin : isInside ctx (s.xi : Int) (s.yi : Int) (s.zi : Int) = true)
    (hd : pyRead1 ctx.depths (s.zi : Int) = .error e) :
    outerF ctx (n + 1) s = .error e := by
  unfold outerF
  rw [if_pos hzi, hin, if_pos rfl, hd]
  simp only [error_bind]

theorem outerF_noseed {ctx : Ctx} {n : ℕ} {s : St}
    (hzi : s.zi < ctx.nz) (hin : isInside ctx (s.xi : Int) (s.yi : Int) (s.zi : Int) = false) :
    outerF ctx (n + 1) s =
      match innerF ctx (innerFuel ctx (noseedSt s)) (noseedSt s) with
      | .error e => .error e
      | .ok s2 => outerF ctx n { s2 with zi := s2.zi + 1 } := by
  conv_lhs => rw [outerF]
  rw [if_pos hzi, hin, if_neg (by simp)]

end CO2Fill

namespace CO2Fill

theorem unvis_seedSt (ctx : Ctx) (s : St) (d : Int) :
    unvis ctx (seedSt s d) = unvis ctx s := rfl

theorem unvis_noseedSt (ctx : Ctx) (s : St) :
    unvis ctx (noseedSt s) = unvis ctx s := rfl

/-- Fuel sufficiency for the outer loop: with more fuel than
`(nz + 1) * unvis + (nz - zi)` the outer loop cannot exhaust its fuel
(every iteration either visits a new cell, or leaves the visited mask
unchanged and increments `zi`). -/
theorem outerF_ne_fuel {ctx : Ctx} :
    ∀ (fuel : ℕ) (s : St),
      (ctx.nz + 1) * unvis ctx s + (ctx.nz - s.zi) < fuel →
      outerF ctx fuel s ≠ .error .fuel := by
  intro fuel
  induction fuel with
  | zero =>
    intro s hm
    omega
  | succ n ih =>
    intro s hm h
    by_cases hzi : s.zi < ctx.nz
    · cases hin : isInside ctx (s.xi : Int) (s.yi : Int) (s.zi : Int) with
      | false =>
        rw [outerF_noseed hzi hin] at h
        cases hi : innerF ctx (innerFuel ctx (noseedSt s)) (noseedSt s) with
        | error e =>
          rw [hi] at h
          simp only [Except.error.injEq] at h
          rw [h] at hi
          refine innerF_ne_fuel (innerFuel ctx (noseedSt s)) (noseedSt s) ?_ hi
          unfold innerFuel
          omega
        | ok s2 =>
          rw [hi] at h
          have h2 : s2 = noseedSt s := innerF_nil rfl hi
          have hu : unvis ctx ({ s2 with zi := s2.zi + 1 }) = unvis ctx s := by
            rw [@unvis_congr ctx { s2 with zi := s2.zi + 1 } s2 rfl, h2]
            rfl
          refine ih _ ?_ h
          rw [hu]
          have hz2 : ({ s2 with zi := s2.zi + 1 } : St).zi = s.zi + 1 := by
            rw [show ({ s2 with zi := s2.zi + 1 } : St).zi = s2.zi + 1 from rfl, h2]
            rfl
          rw [hz2]
          omega
      | true =>
        cases hd : pyRead1 ctx.depths (s.zi : Int) with
        | error e =>
          rw [outerF_seed_err hzi hin hd] at h
          simp only [Except.error.injEq] at h
          rw [h] at hd
          have := pyRead1_error_eq hd
          cases this
        | ok d =>
          rw [outerF_seed_ok hzi hin hd] at h
          cases hi : innerF ctx (innerFuel ctx (seedSt s d)) (seedSt s d) with
          | error e =>
            rw [hi] at h
            simp only [Except.error.injEq] at h
            rw [h] at hi
            refine innerF_ne_fuel (innerFuel ctx (seedSt s d)) (seedSt s d) ?_ hi
            unfold innerFuel
            omega
          | ok s2 =>
            rw [hi] at h
            have hle : unvis ctx s2 ≤ unvis ctx s := by
              have := innerF_unvis_le hi
              rw [unvis_seedSt] at this
              exact this
            have hu2 : unvis ctx ({ s2 with zi := s2.zi + 1 }) = unvis ctx s2 :=
              unvis_congr rfl
            by_cases heq : unvis ctx s2 = unvis ctx s
            · have hz2 : s2.zi = s.zi := by
                refine innerF_stuck (seedSt_heap s d) hi ?_
                rw [unvis_seedSt]
                exact heq
              refine ih _ ?_ h
              rw [hu2, heq]
              rw [show ({ s2 with zi := s2.zi + 1 } : St).zi = s2.zi + 1 from rfl, hz2]
              omega
            · have hlt : unvis ctx s2 < unvis ctx s := lt_of_le_of_ne hle heq
              refine ih _ ?_ h
              rw [hu2]
              have hsub : ctx.nz - (({ s2 with zi := s2.zi + 1 } : St).zi) ≤ ctx.nz :=
                Nat.sub_le _ _
              have hnn : ctx.nz - s.zi ≤ ctx.nz := Nat.sub_le _ _
              nlinarith [Nat.sub_le ctx.nz s.zi]
    · rw [outerF_done hzi] at h
      cases h

end CO2Fill

namespace CO2Fill

theorem isInside_nat_iff {ctx : Ctx} {x y z : ℕ} :
    isInside ctx (x : Int) (y : Int) (z : Int) = true ↔
      x < ctx.nx ∧ y < ctx.ny ∧ z < ctx.nz := by
  simp only [isInside, decide_eq_true_eq]
  omega

/-- On normal return the outer loop has pushed `zi` exactly to `nz`. -/
theorem outerF_final {ctx : Ctx} :
    ∀ (fuel : ℕ) (s sf : St), s.zi ≤ ctx.nz → outerF ctx fuel s = .ok sf →
      sf.zi = ctx.nz := by
  intro fuel
  induction fuel with
  | zero =>
    intro s sf hle h
    rw [outerF_zero] at h
    cases h
  | succ n ih =>
    intro s sf hle h
    by_cases hzi : s.zi < ctx.nz
    · cases hin : isInside ctx (s.xi : Int) (s.yi : Int) (s.zi : Int) with
      | false =>
        rw [outerF_noseed hzi hin] at h
        cases hi : innerF ctx (innerFuel ctx (noseedSt s)) (noseedSt s) with
        | error e => rw [hi] at h; cases h
        | ok s2 =>
          rw [hi] at h
          have h2 : s2 = noseedSt s := innerF_nil rfl hi
          refine ih _ _ ?_ h
          rw [show ({ s2 with zi := s2.zi + 1 } : St).zi = s2.zi + 1 from rfl, h2,
            noseedSt_zi]
          omega
      | true =>
        cases hd : pyRead1 ctx.depths (s.zi : Int) with
        | error e => rw [outerF_seed_err hzi hin hd] at h; cases h
        | ok d =>
          rw [outerF_seed_ok hzi hin hd] at h
          cases hi : innerF ctx (innerFuel ctx (seedSt s d)) (seedSt s d) with
          | error e => rw [hi] at h; cases h
          | ok s2 =>
            rw [hi] at h
            have hB := isInside_nat_iff.mp hin
            have hz2 : s2.zi < ctx.nz := by
              refine innerF_inB_zi _ _ _ hi ?_ ?_
              · intro c hc
                rw [seedSt_heap] at hc
                rcases List.mem_singleton.mp hc with rfl
                exact ⟨hB.1, hB.2.1, hzi⟩
              · rw [seedSt_zi]
                exact hzi
            refine ih _ _ ?_ h
            rw [show ({ s2 with zi := s2.zi + 1 } : St).zi = s2.zi + 1 from rfl]
            omega
    · rw [outerF_done hzi] at h
      simp only [Except.ok.injEq] at h
      rw [← h]
      omega

/-- Generic preservation of a predicate on the mutated data through the
outer loop. -/
theorem outerF_pres {ctx : Ctx} (P : St → Prop)
    (hFields : ∀ s t : St, s.grid = t.grid → s.snaps = t.snaps →
      s.snapCtr = t.snapCtr → s.cellsFilled = t.cellsFilled → P s → P t)
    (hProc : ∀ (s s2 : St) (x y z : ℕ), x < ctx.nx → y < ctx.ny → z < ctx.nz →
      s.visited x y z = false →
      processCell ctx s x y z = .ok s2 → P s → P s2) :
    ∀ (fuel : ℕ) (s sf : St), outerF ctx fuel s = .ok sf → P s → P sf := by
  intro fuel
  induction fuel with
  | zero =>
    intro s sf h
    rw [outerF_zero] at h
    cases h
  | succ n ih =>
    intro s sf h hP
    by_cases hzi : s.zi < ctx.nz
    · cases hin : isInside ctx (s.xi : Int) (s.yi : Int) (s.zi : Int) with
      | false =>
        rw [outerF_noseed hzi hin] at h
        cases hi : innerF ctx (innerFuel ctx (noseedSt s)) (noseedSt s) with
        | error e => rw [hi] at h; cases h
        | ok s2 =>
          rw [hi] at h
          have hP2 : P s2 :=
            innerF_pres P hFields hProc _ _ _ hi (hFields s _ rfl rfl rfl rfl hP)
          exact ih _ _ h (hFields s2 _ rfl rfl rfl rfl hP2)
      | true =>
        cases hd : pyRead1 ctx.depths (s.zi : Int) with
        | error e => rw [outerF_seed_err hzi hin hd] at h; cases h
        | ok d =>
          rw [outerF_seed_ok hzi hin hd] at h
          cases hi : innerF ctx (innerFuel ctx (seedSt s d)) (seedSt s d) with
          | error e => rw [hi] at h; cases h
          | ok s2 =>
            rw [hi] at h
            have hP2 : P s2 :=
              innerF_pres P hFields hProc _ _ _ hi (hFields s _ rfl rfl rfl rfl hP)
            exact ih _ _ h (hFields s2 _ rfl rfl rfl rfl hP2)
    · rw [outerF_done hzi] at h
      simp only [Except.ok.injEq] at h
      rw [← h]
      exact hP

end CO2Fill

namespace CO2Fill

/-! ### Run-level characterization -/

theorem pyRead2_nat {t : ℕ → ℕ → Int} {nx ny x y : ℕ} (hx : x < nx) (hy : y < ny) :
    pyRead2 t nx ny (x : Int) (y : Int) = .ok (t x y) := by
  simp [pyRead2, normIdx_nat hx, normIdx_nat hy]

/-- The derived start index of the run (source lines 49–51). -/
def startZ (topo : ℕ → ℕ → Int) (depths : List Int) (sx sy : ℕ) : ℕ :=
  argminAbs depths (topo sx sy) + 1

/-- When the two source assertions hold, `run` is the outer loop started
from the source coordinates on a fresh state. -/
theorem run_eq_outerF {g : Grid} {nx ny nz : ℕ} {topo : ℕ → ℕ → Int} {depths : List Int}
    {sx sy ts : ℕ}
    (hts : ts ≠ 0) (hsx : sx < nx) (hsy : sy < ny) (hdep : depths ≠ [])
    (hz : startZ topo depths sx sy < nz)
    (h1 : g sx sy (startZ topo depths sx sy) = VELOCITY_RESERVOIR)
    (h2 : g sx sy (argminAbs depths (topo sx sy)) = VELOCITY_CAPROCK) :
    run g nx ny nz topo depths sx sy ts =
      outerF (runCtx g nx ny nz depths ts)
        (outerFuel (runCtx g nx ny nz depths ts) (initSt g sx sy (startZ topo depths sx sy)))
        (initSt g sx sy (startZ topo depths sx sy)) := by
  unfold startZ at hz h1 ⊢
  unfold run
  rw [if_neg hts, pyRead2_nat hsx hsy]
  simp only [ok_bind]
  rw [if_neg hdep]
  have hz2 : argminAbs depths (topo sx sy) + 1 < nz := hz
  rw [pyRead3_nat hsx hsy hz2]
  simp only [ok_bind]
  rw [if_neg (by rw [h1]; exact fun hc => hc rfl)]
  have hcast : ((argminAbs depths (topo sx sy) + 1 : ℕ) : Int) - 1 =
      ((argminAbs depths (topo sx sy) : ℕ) : Int) := by push_cast; ring
  rw [hcast, pyRead3_nat hsx hsy (by omega)]
  simp only [ok_bind]
  rw [if_neg (by rw [h2]; exact fun hc => hc rfl)]

/-- When the first assertion fails (`injection_matrix[xi, yi, zi] !=
VELOCITY_RESERVOIR`), `run` raises the assertion error before running
any loop. -/
theorem run_assert1 {g : Grid} {nx ny nz : ℕ} {topo : ℕ → ℕ → Int} {depths : List Int}
    {sx sy ts : ℕ}
    (hts : ts ≠ 0) (hsx : sx < nx) (hsy : sy < ny) (hdep : depths ≠ [])
    (hz : startZ topo depths sx sy < nz)
    (h1 : g sx sy (startZ topo depths sx sy) ≠ VELOCITY_RESERVOIR) :
    run g nx ny nz topo depths sx sy ts = .error .assertFail := by
  unfold startZ at hz h1
  unfold run
  rw [if_neg hts, pyRead2_nat hsx hsy]
  simp only [ok_bind]
  rw [if_neg hdep]
  have hz2 : argminAbs depths (topo sx sy) + 1 < nz := hz
  rw [pyRead3_nat hsx hsy hz2]
  simp only [ok_bind]
  rw [if_pos h1]

/-- When the second assertion fails (`injection_matrix[xi, yi, zi-1] !=
VELOCITY_CAPROCK`), `run` raises the assertion error before running any
loop. -/
theorem run_assert2 {g : Grid} {nx ny nz : ℕ} {topo : ℕ → ℕ → Int} {depths : List Int}
    {sx sy ts : ℕ}
    (hts : ts ≠ 0) (hsx : sx < nx) (hsy : sy < ny) (hdep : depths ≠ [])
    (hz : startZ topo depths sx sy < nz)
    (h1 : g sx sy (startZ topo depths sx sy) = VELOCITY_RESERVOIR)
    (h2 : g sx sy (argminAbs depths (topo sx sy)) ≠ VELOCITY_CAPROCK) :
    run g nx ny nz topo depths sx sy ts = .error .assertFail := by
  unfold startZ at hz h1
  unfold run
  rw [if_neg hts, pyRead2_nat hsx hsy]
  simp only [ok_bind]
  rw [if_neg hdep]
  have hz2 : argminAbs depths (topo sx sy) + 1 < nz := hz
  rw [pyRead3_nat hsx hsy hz2]
  simp only [ok_bind]
  rw [if_neg (by rw [h1]; exact fun hc => hc rfl)]
  have hcast : ((argminAbs depths (topo sx sy) + 1 : ℕ) : Int) - 1 =
      ((argminAbs depths (topo sx sy) : ℕ) : Int) := by push_cast; ring
  rw [hcast, pyRead3_nat hsx hsy (by omega)]
  simp only [ok_bind]
  rw [if_pos h2]

end CO2Fill

namespace CO2Fill

/-! ### Claim theorems -/

/-- C7: `run` is deterministic — two runs with identical inputs (grid,
dimensions, topography, depth axis, source, snapshot count) return
identical results — and the scheduler comparison `candLe` on the pushed
tuples `(depth, x, y, z)` is a fixed total order (total, antisymmetric,
transitive): candidates with equal depth are ordered by the fixed
lexicographic order on `(x, y, z)`, never nondeterministically. -/
theorem claim_C7 :
    (∀ (g : Grid) (nx ny nz : ℕ) (topo : ℕ → ℕ → Int) (depths : List Int) (sx sy ts : ℕ),
      run g nx ny nz topo depths sx sy ts = run g nx ny nz topo depths sx sy ts) ∧
    (∀ a b : Cand, candLe a b = true ∨ candLe b a = true) ∧
    (∀ a b : Cand, candLe a b = true → candLe b a = true → a = b) ∧
    (∀ a b c : Cand, candLe a b = true → candLe b c = true → candLe a c = true) := by
  refine ⟨fun _ _ _ _ _ _ _ _ _ => rfl, ?_, ?_, ?_⟩
  · intro a b
    simp only [candLe, decide_eq_true_eq]
    omega
  · intro a b
    obtain ⟨a1, a2, a3, a4⟩ := a
    obtain ⟨b1, b2, b3, b4⟩ := b
    simp only [candLe, decide_eq_true_eq, Prod.mk.injEq]
    omega
  · intro a b c
    simp only [candLe, decide_eq_true_eq]
    omega

theorem claim_C7_witness :
    run gA 3 3 4 topoA [0, 1, 2, 3] 1 1 1 = run gA 3 3 4 topoA [0, 1, 2, 3] 1 1 1 ∧
    (candLe (0, 0, 0, 0) (0, 1, 2, 3) = true ∨ candLe (0, 1, 2, 3) (0, 0, 0, 0) = true) :=
  ⟨claim_C7.1 gA 3 3 4 topoA [0, 1, 2, 3] 1 1 1, claim_C7.2.1 (0, 0, 0, 0) (0, 1, 2, 3)⟩

/-- C10: when a candidate at depth index `z = 0` is processed, the fill
rule's read of the "upward (z-1) neighbor" uses numpy index `-1`, which
denotes the DEEPEST layer `nz - 1` of the same column (first conjunct:
that is what the read the engine performs returns); consequently a
top-layer cell is filled exactly when it is FillableMedium and the
bottom cell of its column is not FillableMedium (second conjunct). -/
theorem claim_C10 (ctx : Ctx) (s : St) (x y : ℕ)
    (hx : x < ctx.nx) (hy : y < ctx.ny) (hnz : 0 < ctx.nz) :
    pyRead3 s.grid ctx.nx ctx.ny ctx.nz (x : Int) (y : Int) (-1) =
      .ok (s.grid x y (ctx.nz - 1)) ∧
    (applyFill ctx (markVisited s x y 0) (s.grid x y (ctx.nz - 1)) x y 0).grid x y 0 =
      (if s.grid x y 0 = VELOCITY_RESERVOIR ∧ s.grid x y (ctx.nz - 1) ≠ VELOCITY_RESERVOIR
       then VELOCITY_CO2 else s.grid x y 0) := by
  constructor
  · simp [pyRead3, normIdx_nat hx, normIdx_nat hy, normIdx_neg_one hnz]
  · unfold applyFill
    rw [markVisited_grid]
    split
    · dsimp only
      split <;> simp [setCell]
    · rfl

theorem claim_C10_witness :
    pyRead3 (initSt gA 1 1 0).grid ctxW.nx ctxW.ny ctxW.nz ((1 : ℕ) : Int) ((1 : ℕ) : Int) (-1) =
      .ok ((initSt gA 1 1 0).grid 1 1 (ctxW.nz - 1)) ∧
    (applyFill ctxW (markVisited (initSt gA 1 1 0) 1 1 0)
        ((initSt gA 1 1 0).grid 1 1 (ctxW.nz - 1)) 1 1 0).grid 1 1 0 =
      (if (initSt gA 1 1 0).grid 1 1 0 = VELOCITY_RESERVOIR ∧
          (initSt gA 1 1 0).grid 1 1 (ctxW.nz - 1) ≠ VELOCITY_RESERVOIR
       then VELOCITY_CO2 else (initSt gA 1 1 0).grid 1 1 0) :=
  claim_C10 ctxW (initSt gA 1 1 0) 1 1 (by decide) (by decide) (by decide)

end CO2Fill

namespace CO2Fill

/-- C2: for a popped candidate that is unvisited and in bounds (here
with `z ≥ 1`, so the upward read is the literal `(x, y, z-1)` cell; the
`z = 0` wrap case is the subject of the separate claim about numpy
index `-1`), the engine fills the cell exactly when it is
FillableMedium and its upward neighbor is not FillableMedium; on
filling it sets the cell to Filled, records `fillOrder = snapCtr`,
increments the cells-filled count, and when that count reaches
`snapshotInterval` it bumps the snapshot counter and resets the count;
in all other cases grid, fill order and counters are unchanged.  The
last conjunct ties the step to `processCell`: every successful
`processCell` is exactly this mark-and-fill state plus scheduler
pushes. -/
theorem claim_C2 (ctx : Ctx) (s : St) (x y z : ℕ)
    (hx : x < ctx.nx) (hy : y < ctx.ny) (hz : z < ctx.nz) (h1 : 1 ≤ z)
    (hcf : s.cellsFilled < ctx.interval) :
    pyRead3 s.grid ctx.nx ctx.ny ctx.nz (x : Int) (y : Int) ((z : Int) - 1) =
      .ok (s.grid x y (z - 1)) ∧
    ((s.grid x y z = VELOCITY_RESERVOIR ∧ s.grid x y (z - 1) ≠ VELOCITY_RESERVOIR) →
      ((applyFill ctx (markVisited s x y z) (s.grid x y (z - 1)) x y z).grid x y z =
          VELOCITY_CO2 ∧
        (applyFill ctx (markVisited s x y z) (s.grid x y (z - 1)) x y z).snaps x y z =
          s.snapCtr ∧
        (∀ a b c, ¬ (a = x ∧ b = y ∧ c = z) →
          (applyFill ctx (markVisited s x y z) (s.grid x y (z - 1)) x y z).grid a b c =
            s.grid a b c ∧
          (applyFill ctx (markVisited s x y z) (s.grid x y (z - 1)) x y z).snaps a b c =
            s.snaps a b c) ∧
        (s.cellsFilled + 1 = ctx.interval →
          (applyFill ctx (markVisited s x y z) (s.grid x y (z - 1)) x y z).snapCtr =
            s.snapCtr + 1 ∧
          (applyFill ctx (markVisited s x y z) (s.grid x y (z - 1)) x y z).cellsFilled = 0) ∧
        (s.cellsFilled + 1 ≠ ctx.interval →
          (applyFill ctx (markVisited s x y z) (s.grid x y (z - 1)) x y z).snapCtr =
            s.snapCtr ∧
          (applyFill ctx (markVisited s x y z) (s.grid x y (z - 1)) x y z).cellsFilled =
            s.cellsFilled + 1))) ∧
    (¬ (s.grid x y z = VELOCITY_RESERVOIR ∧ s.grid x y (z - 1) ≠ VELOCITY_RESERVOIR) →
      ((applyFill ctx (markVisited s x y z) (s.grid x y (z - 1)) x y z).grid = s.grid ∧
       (applyFill ctx (markVisited s x y z) (s.grid x y (z - 1)) x y z).snaps = s.snaps ∧
       (applyFill ctx (markVisited s x y z) (s.grid x y (z - 1)) x y z).snapCtr = s.snapCtr ∧
       (applyFill ctx (markVisited s x y z) (s.grid x y (z - 1)) x y z).cellsFilled =
         s.cellsFilled)) ∧
    (∀ s2, processCell ctx s x y z = .ok s2 →
      ∃ hp, s2 = { applyFill ctx (markVisited s x y z) (s.grid x y (z - 1)) x y z with
        heap := hp }) := by
  have hread : pyRead3 s.grid ctx.nx ctx.ny ctx.nz (x : Int) (y : Int) ((z : Int) - 1) =
      .ok (s.grid x y (z - 1)) := by
    rw [pyRead3_up hx hy hz, if_neg (by omega)]
  refine ⟨hread, ?_, ?_, ?_⟩
  · intro hcond
    have hcond2 : (markVisited s x y z).grid x y z = VELOCITY_RESERVOIR ∧
        s.grid x y (z - 1) ≠ VELOCITY_RESERVOIR := by
      rw [markVisited_grid]
      exact hcond
    unfold applyFill
    rw [if_pos hcond2]
    dsimp only
    by_cases hi : ctx.interval ≤ (markVisited s x y z).cellsFilled + 1
    · rw [if_pos hi]
      rw [markVisited_cellsFilled] at hi
      refine ⟨by simp [setCell], by simp [setCell], ?_, ?_, ?_⟩
      · intro a b c hne
        constructor
        · show setCell s.grid x y z VELOCITY_CO2 a b c = s.grid a b c
          simp only [setCell]
          rw [if_neg ?_]
          intro hc
          exact hne ⟨hc.1, hc.2.1, hc.2.2⟩
        · show setCell (markVisited s x y z).snaps x y z (markVisited s x y z).snapCtr a b c =
            s.snaps a b c
          simp only [setCell, markVisited_snaps, markVisited_snapCtr]
          rw [if_neg ?_]
          intro hc
          exact hne ⟨hc.1, hc.2.1, hc.2.2⟩
      · intro _
        exact ⟨rfl, rfl⟩
      · intro hne
        exact absurd (by omega) hne
    · rw [if_neg hi]
      rw [markVisited_cellsFilled] at hi
      refine ⟨by simp [setCell], by simp [setCell], ?_, ?_, ?_⟩
      · intro a b c hne
        constructor
        · show setCell s.grid x y z VELOCITY_CO2 a b c = s.grid a b c
          simp only [setCell]
          rw [if_neg ?_]
          intro hc
          exact hne ⟨hc.1, hc.2.1, hc.2.2⟩
        · show setCell (markVisited s x y z).snaps x y z (markVisited s x y z).snapCtr a b c =
            s.snaps a b c
          simp only [setCell, markVisited_snaps, markVisited_snapCtr]
          rw [if_neg ?_]
          intro hc
          exact hne ⟨hc.1, hc.2.1, hc.2.2⟩
      · intro heq
        exact absurd (by omega : ctx.interval ≤ s.cellsFilled + 1) hi
      · intro _
        exact ⟨rfl, rfl⟩
  · intro hcond
    have hcond2 : ¬ ((markVisited s x y z).grid x y z = VELOCITY_RESERVOIR ∧
        s.grid x y (z - 1) ≠ VELOCITY_RESERVOIR) := by
      rw [markVisited_grid]
      exact hcond
    unfold applyFill
    rw [if_neg hcond2]
    exact ⟨rfl, rfl, rfl, rfl⟩
  · intro s2 hproc
    have := processCell_ok_shape hx hy hz hproc
    rwa [if_neg (by omega : ¬ z = 0)] at this

theorem claim_C2_witness :
    (applyFill ctxW (markVisited (initSt gA 1 1 3) 1 1 3)
        ((initSt gA 1 1 3).grid 1 1 (3 - 1)) 1 1 3).grid 1 1 3 = VELOCITY_CO2 :=
  ((claim_C2 ctxW (initSt gA 1 1 3) 1 1 3 (by decide) (by decide) (by decide) (by decide)
    (by decide)).2.1 (by decide)).1

end CO2Fill

namespace CO2Fill

/-- C4 (code bug): contrary to the claim that out-of-bounds neighbors
are silently discarded, `run` raises `IndexError` whenever a processed
cell touches the upper x/y boundary, because the neighbor read
`injection_matrix[xi+dx, yi+dy, ...]` is evaluated BEFORE
`is_inside_bounds` in the `and`-chain.  On the spec's own 1 by 1 by 5
column scenario the very first processed cell (the source) reads the
neighbor at x+1 = 1 = nx and the whole run raises. -/
theorem claim_C4_bug :
    errOf (run gB 1 1 5 topoB [0, 1, 2, 3, 4] 0 0 1) = some .index := by
  decide

/-- C8 counterexample: `run` on a NON-MONOTONIC depth axis `[5, 3, 7]`
(`5 > 3`) completes normally (trace `[(1,1,2)]`) instead of rejecting
the configuration, refuting the claim that a non-monotonic depth axis
is rejected with a fatal failure. -/
theorem claim_C8_counterexample :
    traceOf (run gC 3 3 3 topoC [5, 3, 7] 1 1 1) = some [(1, 1, 2)] ∧
    ¬ ((5 : Int) ≤ 3) := by
  constructor
  · decide
  · decide

/-- C8 (amended): the only configuration check `run` performs is the
source precondition — the cell at the derived start index must be
FillableMedium and the cell directly above it Barrier — raised as an
assertion failure before the loops run and before any mutation; the
monotonicity of the depth axis and the grid/depth-axis dimension
agreement are NOT validated. -/
theorem claim_C8 (g : Grid) (nx ny nz : ℕ) (topo : ℕ → ℕ → Int) (depths : List Int)
    (sx sy ts : ℕ)
    (hts : ts ≠ 0) (hsx : sx < nx) (hsy : sy < ny) (hdep : depths ≠ [])
    (hz : startZ topo depths sx sy < nz) :
    (g sx sy (startZ topo depths sx sy) ≠ VELOCITY_RESERVOIR →
      run g nx ny nz topo depths sx sy ts = .error .assertFail) ∧
    (g sx sy (startZ topo depths sx sy) = VELOCITY_RESERVOIR →
      g sx sy (argminAbs depths (topo sx sy)) ≠ VELOCITY_CAPROCK →
      run g nx ny nz topo depths sx sy ts = .error .assertFail) :=
  ⟨fun h1 => run_assert1 hts hsx hsy hdep hz h1,
   fun h1 h2 => run_assert2 hts hsx hsy hdep hz h1 h2⟩

theorem claim_C8_witness :
    run gD 1 1 3 topoD [0, 1, 2] 0 0 1 = .error .assertFail :=
  (claim_C8 gD 1 1 3 topoD [0, 1, 2] 0 0 1 (by decide) (by decide) (by decide)
    (by decide) (by decide)).1 (by decide)

end CO2Fill

namespace CO2Fill

@[simp] theorem markVisited_lastPop (s : St) (x y z : ℕ) :
    (markVisited s x y z).lastPop = s.lastPop := rfl

/-- `(xi, yi, zi)` always hold the coordinates of the last popped
candidate (when one exists). -/
def Aligned (s : St) : Prop :=
  ∀ c : Cand, s.lastPop = some c → s.xi = c.2.1 ∧ s.yi = c.2.2.1 ∧ s.zi = c.2.2.2

theorem processCell_keeps_coords {ctx : Ctx} {s s2 : St} {x y z : ℕ}
    (hx : x < ctx.nx) (hy : y < ctx.ny) (hz : z < ctx.nz)
    (h : processCell ctx s x y z = .ok s2) :
    s2.xi = s.xi ∧ s2.yi = s.yi ∧ s2.zi = s.zi ∧ s2.lastPop = s.lastPop := by
  obtain ⟨hp, rfl⟩ := processCell_ok_shape hx hy hz h
  refine ⟨?_, ?_, ?_, ?_⟩
  · show (applyFill ctx (markVisited s x y z) _ x y z).xi = s.xi
    rw [applyFill_xi, markVisited_xi]
  · show (applyFill ctx (markVisited s x y z) _ x y z).yi = s.yi
    rw [applyFill_yi, markVisited_yi]
  · show (applyFill ctx (markVisited s x y z) _ x y z).zi = s.zi
    rw [applyFill_zi, markVisited_zi]
  · show (applyFill ctx (markVisited s x y z) _ x y z).lastPop = s.lastPop
    rw [applyFill_lastPop, markVisited_lastPop]

/-- C1 counterexample: on the 3 by 3 by 4 input `gA` with source
`(1, 1)`, the outer-iteration heads recorded in the ghost trace are
`(1,1,3)`, `(1,1,2)` and then `(0,0,3)`: the third outer iteration
re-seeds at column `(0, 0)`, NOT at the original source column
`(1, 1)`, because the pop overwrote `xi, yi`.  This refutes the claim
that every re-seed uses the original source coordinates. -/
theorem claim_C1_counterexample :
    traceOf (run gA 3 3 4 topoA [0, 1, 2, 3] 1 1 1) =
      some [(1, 1, 3), (1, 1, 2), (0, 0, 3)] ∧ ¬ ((0 : ℕ) = 1) := by
  constructor
  · decide
  · decide

/-- C1 (amended): when the scheduler empties, the engine re-seeds at
the coordinates held by `(xi, yi, zi)` — which are those of the LAST
POPPED candidate, not of the original source — and at depth index one
more than the last popped `z`.  Conjunct 1: the inner loop keeps
`(xi, yi, zi)` aligned with the last popped candidate.  Conjunct 2: an
outer iteration seeds the fresh scheduler with exactly the candidate
`(depths[zi], xi, yi, zi)` built from the current variables, runs the
inner loop on it, and continues with `zi` incremented by one.
Conjunct 3: that seed candidate is literally `(d, s.xi, s.yi, s.zi)`. -/
theorem claim_C1 (ctx : Ctx) :
    (∀ (fuel : ℕ) (s sf : St), innerF ctx fuel s = .ok sf → Aligned s → Aligned sf) ∧
    (∀ (n : ℕ) (s : St) (d : Int), s.zi < ctx.nz →
      isInside ctx (s.xi : Int) (s.yi : Int) (s.zi : Int) = true →
      pyRead1 ctx.depths (s.zi : Int) = .ok d →
      outerF ctx (n + 1) s =
        match innerF ctx (innerFuel ctx (seedSt s d)) (seedSt s d) with
        | .error e => .error e
        | .ok s2 => outerF ctx n { s2 with zi := s2.zi + 1 }) ∧
    (∀ (s : St) (d : Int), (seedSt s d).heap = [(d, s.xi, s.yi, s.zi)]) := by
  refine ⟨?_, ?_, ?_⟩
  · intro fuel
    induction fuel with
    | zero =>
      intro s sf h
      rw [innerF_zero] at h
      cases h
    | succ n ih =>
      intro s sf h hA
      rw [innerF_succ] at h
      revert h
      cases hh : s.heap with
      | nil =>
        intro h
        simp only [Except.ok.injEq] at h
        rw [← h]
        exact hA
      | cons c0 rest =>
        obtain ⟨d, x, y, z⟩ := c0
        intro h
        dsimp only at h
        have hA1 : Aligned (popState s d x y z rest) := by
          intro c hc
          rw [popState_lastPop] at hc
          simp only [Option.some.injEq] at hc
          rw [← hc]
          exact ⟨rfl, rfl, rfl⟩
        split at h
        · exact ih _ _ h hA1
        · split at h
          · exact ih _ _ h hA1
          · rename_i hnv hin
            split at h
            · cases h
            · rename_i s2 hproc
              have hB : x < ctx.nx ∧ y < ctx.ny ∧ z < ctx.nz := not_not.mp hin
              have hk := processCell_keeps_coords hB.1 hB.2.1 hB.2.2 hproc
              refine ih _ _ h ?_
              intro c hc
              rw [hk.2.2.2] at hc
              have := hA1 c hc
              rw [hk.1, hk.2.1, hk.2.2.1]
              exact this
  · intro n s d hzi hin hd
    exact outerF_seed_ok hzi hin hd
  · intro s d
    exact seedSt_heap s d

theorem claim_C1_witness :
    outerF ctxW (0 + 1) (initSt gA 1 1 3) =
      match innerF ctxW (innerFuel ctxW (seedSt (initSt gA 1 1 3) 3))
          (seedSt (initSt gA 1 1 3) 3) with
      | .error e => .error e
      | .ok s2 => outerF ctxW 0 { s2 with zi := s2.zi + 1 } :=
  (claim_C1 ctxW).2.1 0 (initSt gA 1 1 3) 3 (by decide) (by decide) (by rfl)

end CO2Fill

namespace CO2Fill

theorem pyRead2_error_eq {t : ℕ → ℕ → Int} {nx ny : ℕ} {ix iy : Int} {e : PyErr}
    (h : pyRead2 t nx ny ix iy = .error e) : e = .index := by
  unfold pyRead2 at h
  cases hx : normIdx nx ix with
  | error ex =>
    rw [hx] at h
    simp only [error_bind, Except.error.injEq] at h
    rw [← h]
    exact normIdx_error_eq hx
  | ok x =>
    rw [hx] at h
    simp only [ok_bind] at h
    cases hy : normIdx ny iy with
    | error ey =>
      rw [hy] at h
      simp only [error_bind, Except.error.injEq] at h
      rw [← h]
      exact normIdx_error_eq hy
    | ok y =>
      rw [hy] at h
      simp at h

theorem normIdx_nat_ok {n k m : ℕ} (h : normIdx n ((k : ℕ) : Int) = .ok m) : k < n := by
  unfold normIdx at h
  split at h
  · cases h
  · rename_i hcond
    omega

theorem pyRead3_nat_ok_bounds {g : Grid} {nx ny nz x y z : ℕ} {v : Int}
    (h : pyRead3 g nx ny nz (x : Int) (y : Int) (z : Int) = .ok v) :
    x < nx ∧ y < ny ∧ z < nz := by
  unfold pyRead3 at h
  cases hx : normIdx nx (x : Int) with
  | error ex => rw [hx] at h; simp at h
  | ok kx =>
    rw [hx] at h
    simp only [ok_bind] at h
    cases hy : normIdx ny (y : Int) with
    | error ey => rw [hy] at h; simp at h
    | ok ky =>
      rw [hy] at h
      simp only [ok_bind] at h
      cases hz : normIdx nz (z : Int) with
      | error ez => rw [hz] at h; simp at h
      | ok kz =>
        exact ⟨normIdx_nat_ok hx, normIdx_nat_ok hy, normIdx_nat_ok hz⟩

/-- C9 counterexample: the depth index `z` is NOT non-decreasing across
outer iterations — on input `gA` the outer-iteration heads are
`(1,1,3)`, then `(1,1,2)` (z dropped from 3 to 2, because `z` is set to
one more than the last popped candidate's `z` and the wavefront had
climbed to layer 1), then `(0,0,3)`. -/
theorem claim_C9_counterexample :
    traceOf (run gA 3 3 4 topoA [0, 1, 2, 3] 1 1 1) =
      some [(1, 1, 3), (1, 1, 2), (0, 0, 3)] ∧ (2 : ℕ) < 3 := by
  constructor
  · decide
  · decide

/-- C9 (amended): `run` terminates on every input — the embedding's
fuel, chosen as `(nz+1) * unvisited + (nz - z) + 1`, is never exhausted
(conjunct 1); when `run` returns normally the outer loop has ended with
`z` equal to the grid's depth extent `nz` (conjunct 2); and the
VisitedSet only grows during the inner loop (conjunct 3).  The claim's
remaining assertion — that `z` never decreases across outer
iterations — is false (see the counterexample): `z` restarts at one
more than the last popped candidate's `z`. -/
theorem claim_C9 :
    (∀ (g : Grid) (nx ny nz : ℕ) (topo : ℕ → ℕ → Int) (depths : List Int) (sx sy ts : ℕ),
      run g nx ny nz topo depths sx sy ts ≠ .error .fuel) ∧
    (∀ (g : Grid) (nx ny nz : ℕ) (topo : ℕ → ℕ → Int) (depths : List Int)
      (sx sy ts : ℕ) (sf : St),
      run g nx ny nz topo depths sx sy ts = .ok sf → sf.zi = nz) ∧
    (∀ (ctx : Ctx) (fuel : ℕ) (s sf : St), innerF ctx fuel s = .ok sf →
      ∀ a b c, s.visited a b c = true → sf.visited a b c = true) := by
  refine ⟨?_, ?_, ?_⟩
  · intro g nx ny nz topo depths sx sy ts h
    unfold run at h
    split at h
    · simp at h
    · cases h2 : pyRead2 topo nx ny (sx : Int) (sy : Int) with
      | error e =>
        rw [h2] at h
        simp only [error_bind, Except.error.injEq] at h
        rw [h] at h2
        have := pyRead2_error_eq h2
        cases this
      | ok start =>
        rw [h2] at h
        simp only [ok_bind] at h
        split at h
        · simp at h
        · cases h3 : pyRead3 g nx ny nz (sx : Int) (sy : Int)
              ((argminAbs depths start + 1 : ℕ) : Int) with
          | error e =>
            rw [h3] at h
            simp only [error_bind, Except.error.injEq] at h
            rw [h] at h3
            have := pyRead3_error_eq h3
            cases this
          | ok v1 =>
            rw [h3] at h
            simp only [ok_bind] at h
            split at h
            · simp at h
            · cases h4 : pyRead3 g nx ny nz (sx : Int) (sy : Int)
                  (((argminAbs depths start + 1 : ℕ) : Int) - 1) with
              | error e =>
                rw [h4] at h
                simp only [error_bind, Except.error.injEq] at h
                rw [h] at h4
                have := pyRead3_error_eq h4
                cases this
              | ok v2 =>
                rw [h4] at h
                simp only [ok_bind] at h
                split at h
                · simp at h
                · refine outerF_ne_fuel _ _ ?_ h
                  unfold outerFuel
                  omega
  · intro g nx ny nz topo depths sx sy ts sf h
    unfold run at h
    split at h
    · cases h
    · cases h2 : pyRead2 topo nx ny (sx : Int) (sy : Int) with
      | error e =>
        rw [h2] at h
        simp only [error_bind] at h
        cases h
      | ok start =>
        rw [h2] at h
        simp only [ok_bind] at h
        split at h
        · cases h
        · cases h3 : pyRead3 g nx ny nz (sx : Int) (sy : Int)
              ((argminAbs depths start + 1 : ℕ) : Int) with
          | error e =>
            rw [h3] at h
            simp only [error_bind] at h
            cases h
          | ok v1 =>
            rw [h3] at h
            simp only [ok_bind] at h
            split at h
            · cases h
            · cases h4 : pyRead3 g nx ny nz (sx : Int) (sy : Int)
                  (((argminAbs depths start + 1 : ℕ) : Int) - 1) with
              | error e =>
                rw [h4] at h
                simp only [error_bind] at h
                cases h
              | ok v2 =>
                rw [h4] at h
                simp only [ok_bind] at h
                split at h
                · cases h
                · have hzlt : argminAbs depths start + 1 < nz :=
                    (pyRead3_nat_ok_bounds h3).2.2
                  exact outerF_final _ _ _ (by exact Nat.le_of_lt hzlt) h
  · intro ctx fuel s sf h
    exact innerF_visited_mono fuel s sf h

theorem claim_C9_witness :
    run gA 3 3 4 topoA [0, 1, 2, 3] 1 1 1 ≠ .error .fuel :=
  claim_C9.1 gA 3 3 4 topoA [0, 1, 2, 3] 1 1 1

end CO2Fill

namespace CO2Fill

/-- A successful `run` is a successful outer loop from the initial
state at some start index below `nz`. -/
theorem run_ok_outerF {g : Grid} {nx ny nz : ℕ} {topo : ℕ → ℕ → Int}
    {depths : List Int} {sx sy ts : ℕ} {sf : St}
    (h : run g nx ny nz topo depths sx sy ts = .ok sf) :
    ∃ zi : ℕ, zi < nz ∧
      outerF (runCtx g nx ny nz depths ts)
        (outerFuel (runCtx g nx ny nz depths ts) (initSt g sx sy zi))
        (initSt g sx sy zi) = .ok sf := by
  unfold run at h
  split at h
  · cases h
  · cases h2 : pyRead2 topo nx ny (sx : Int) (sy : Int) with
    | error e =>
      rw [h2] at h
      simp only [error_bind] at h
      cases h
    | ok start =>
      rw [h2] at h
      simp only [ok_bind] at h
      split at h
      · cases h
      · cases h3 : pyRead3 g nx ny nz (sx : Int) (sy : Int)
            ((argminAbs depths start + 1 : ℕ) : Int) with
        | error e =>
          rw [h3] at h
          simp only [error_bind] at h
          cases h
        | ok v1 =>
          rw [h3] at h
          simp only [ok_bind] at h
          split at h
          · cases h
          · cases h4 : pyRead3 g nx ny nz (sx : Int) (sy : Int)
                (((argminAbs depths start + 1 : ℕ) : Int) - 1) with
            | error e =>
              rw [h4] at h
              simp only [error_bind] at h
              cases h
            | ok v2 =>
              rw [h4] at h
              simp only [ok_bind] at h
              split at h
              · cases h
              · exact ⟨argminAbs depths start + 1, (pyRead3_nat_ok_bounds h3).2.2, h⟩

theorem applyFill_grid (ctx : Ctx) (s : St) (up : Int) (x y z : ℕ) :
    (applyFill ctx s up x y z).grid =
      if s.grid x y z = VELOCITY_RESERVOIR ∧ up ≠ VELOCITY_RESERVOIR
      then setCell s.grid x y z VELOCITY_CO2 else s.grid := by
  unfold applyFill
  split
  · dsimp only
    split <;> rfl
  · rfl

theorem applyFill_snaps (ctx : Ctx) (s : St) (up : Int) (x y z : ℕ) :
    (applyFill ctx s up x y z).snaps =
      if s.grid x y z = VELOCITY_RESERVOIR ∧ up ≠ VELOCITY_RESERVOIR
      then setCell s.snaps x y z s.snapCtr else s.snaps := by
  unfold applyFill
  split
  · dsimp only
    split <;> rfl
  · rfl

end CO2Fill

namespace CO2Fill

/-- The state-consistency invariant behind claim C5, relative to the
input grid `g0`: every in-bounds cell either still holds its input
value or was FillableMedium and is now Filled; the fill-order entry of
a cell is set exactly when the cell is Filled; the snapshot counter is
never negative (so a set entry is never the `-1` sentinel). -/
def InvC5 (g0 : Grid) (nx ny nz : ℕ) (s : St) : Prop :=
  (∀ x y z, x < nx → y < ny → z < nz →
    ((s.grid x y z = g0 x y z ∨
      (s.grid x y z = VELOCITY_CO2 ∧ g0 x y z = VELOCITY_RESERVOIR)) ∧
     (s.snaps x y z ≠ -1 ↔ s.grid x y z = VELOCITY_CO2))) ∧
  0 ≤ s.snapCtr

theorem InvC5_fields {g0 : Grid} {nx ny nz : ℕ} {s t : St}
    (hg : s.grid = t.grid) (hs : s.snaps = t.snaps) (hc : s.snapCtr = t.snapCtr)
    (h : InvC5 g0 nx ny nz s) : InvC5 g0 nx ny nz t := by
  unfold InvC5 at h ⊢
  rw [← hg, ← hs, ← hc]
  exact h

theorem applyFill_InvC5 {ctx : Ctx} {g0 : Grid} {s : St} (up : Int) (x y z : ℕ)
    (hx : x < ctx.nx) (hy : y < ctx.ny) (hz : z < ctx.nz)
    (h : InvC5 g0 ctx.nx ctx.ny ctx.nz s) :
    InvC5 g0 ctx.nx ctx.ny ctx.nz (applyFill ctx s up x y z) := by
  unfold applyFill
  split
  · rename_i hcond
    dsimp only
    have hg0 : g0 x y z = VELOCITY_RESERVOIR := by
      rcases ((h.1 x y z hx hy hz).1) with h1 | h1
      · rw [← h1]
        exact hcond.1
      · exact absurd (h1.1 ▸ hcond.1) (by decide)
    have hkey : ∀ ctr2 : Int, s.snapCtr ≤ ctr2 → ∀ cf2 : ℕ,
        InvC5 g0 ctx.nx ctx.ny ctx.nz
          { s with grid := setCell s.grid x y z VELOCITY_CO2,
                   snaps := setCell s.snaps x y z s.snapCtr,
                   snapCtr := ctr2, cellsFilled := cf2 } := by
      intro ctr2 hctr cf2
      constructor
      · intro a b c ha hb hc
        by_cases he : a = x ∧ b = y ∧ c = z
        · obtain ⟨rfl, rfl, rfl⟩ := he
          constructor
          · right
            exact ⟨by simp [setCell], hg0⟩
          · constructor
            · intro _
              simp [setCell]
            · intro _
              show setCell s.snaps a b c s.snapCtr a b c ≠ -1
              simp only [setCell]
              rw [if_pos (by simp)]
              have h2 := h.2
              omega
        · constructor
          · show (setCell s.grid x y z VELOCITY_CO2 a b c = g0 a b c ∨ _) 
            simp only [setCell, if_neg he]
            exact (h.1 a b c ha hb hc).1
          · show setCell s.snaps x y z s.snapCtr a b c ≠ -1 ↔
              setCell s.grid x y z VELOCITY_CO2 a b c = VELOCITY_CO2
            simp only [setCell, if_neg he]
            exact (h.1 a b c ha hb hc).2
      · show 0 ≤ ctr2
        have := h.2
        omega
    split
    · exact hkey _ (by omega) _
    · exact hkey _ (by omega) _
  · exact h

theorem processCell_InvC5 {ctx : Ctx} {g0 : Grid} {s s2 : St} {x y z : ℕ}
    (hx : x < ctx.nx) (hy : y < ctx.ny) (hz : z < ctx.nz)
    (hproc : processCell ctx s x y z = .ok s2)
    (h : InvC5 g0 ctx.nx ctx.ny ctx.nz s) : InvC5 g0 ctx.nx ctx.ny ctx.nz s2 := by
  obtain ⟨hp, rfl⟩ := processCell_ok_shape hx hy hz hproc
  refine InvC5_fields rfl rfl rfl ?_
  exact applyFill_InvC5 _ x y z hx hy hz (InvC5_fields rfl rfl rfl h)

end CO2Fill

namespace CO2Fill

/-- C5: after a successful `run` on a grid with no pre-Filled cells,
for every in-bounds coordinate the fill-order entry differs from the
`-1` sentinel exactly when the cell is Filled (conjunct 1); every
Filled cell was FillableMedium in the input grid (conjunct 2); and a
set fill-order entry is never overwritten by a later fill step
(conjunct 3: `applyFill` leaves every already-set entry — whose cell is
Filled, by conjunct 1 — unchanged). -/
theorem claim_C5 (g : Grid) (nx ny nz : ℕ) (topo : ℕ → ℕ → Int) (depths : List Int)
    (sx sy ts : ℕ) (sf : St)
    (hg : ∀ x y z, x < nx → y < ny → z < nz → g x y z ≠ VELOCITY_CO2)
    (h : run g nx ny nz topo depths sx sy ts = .ok sf) :
    (∀ x y z, x < nx → y < ny → z < nz →
      (sf.snaps x y z ≠ -1 ↔ sf.grid x y z = VELOCITY_CO2)) ∧
    (∀ x y z, x < nx → y < ny → z < nz →
      sf.grid x y z = VELOCITY_CO2 → g x y z = VELOCITY_RESERVOIR) ∧
    (∀ (ctx : Ctx) (s : St) (up : Int) (x y z a b c : ℕ),
      s.snaps a b c ≠ -1 → s.grid a b c = VELOCITY_CO2 →
      (applyFill ctx s up x y z).snaps a b c = s.snaps a b c) := by
  obtain ⟨zi, hzi, houter⟩ := run_ok_outerF h
  have hinv : InvC5 g nx ny nz sf := by
    refine @outerF_pres (runCtx g nx ny nz depths ts) (InvC5 g nx ny nz)
      ?_ ?_ _ _ _ houter ?_
    · intro s t hgr hsn hct _ hP
      exact InvC5_fields hgr hsn hct hP
    · intro s s2 x y z hx hy hz _ hproc hP
      exact processCell_InvC5 hx hy hz hproc hP
    · constructor
      · intro x y z hx hy hz
        refine ⟨Or.inl rfl, ?_, ?_⟩
        · intro hc
          exact absurd rfl hc
        · intro hc
          exact absurd hc (hg x y z hx hy hz)
      · exact le_refl 0
  refine ⟨?_, ?_, ?_⟩
  · intro x y z hx hy hz
    exact (hinv.1 x y z hx hy hz).2
  · intro x y z hx hy hz hco2
    rcases (hinv.1 x y z hx hy hz).1 with h1 | h1
    · exact absurd (h1 ▸ hco2) (hg x y z hx hy hz)
    · exact h1.2
  · intro ctx s up x y z a b c hset hco2
    rw [applyFill_snaps]
    split
    · rename_i hcond
      show setCell s.snaps x y z s.snapCtr a b c = s.snaps a b c
      simp only [setCell]
      split
      · rename_i he
        obtain ⟨rfl, rfl, rfl⟩ := he
        exact absurd (hco2 ▸ hcond.1) (by intro hc; revert hc; decide)
      · rfl
    · rfl

/-- The final state of the run on the `gA` scenario (used by
witnesses; falls back to the initial state on error, which does not
happen). -/
def sA : St :=
  match run gA 3 3 4 topoA [0, 1, 2, 3] 1 1 1 with
  | .ok s => s
  | .error _ => initSt gA 1 1 3

theorem claim_C5_witness :
    sA.snaps 1 1 3 ≠ -1 ↔ sA.grid 1 1 3 = VELOCITY_CO2 :=
  (claim_C5 gA 3 3 4 topoA [0, 1, 2, 3] 1 1 1 sA
    (by intro x y z hx hy hz; unfold gA; split_ifs <;> decide)
    (by rfl)).1 1 1 3 (by omega) (by omega) (by omega)

end CO2Fill

namespace CO2Fill

/-- The trapping invariant behind claim C6: no in-bounds Filled cell at
`z ≥ 1` has FillableMedium directly above it. -/
def InvC6 (nx ny nz : ℕ) (s : St) : Prop :=
  ∀ x y z, x < nx → y < ny → z < nz → 1 ≤ z → s.grid x y z = VELOCITY_CO2 →
    s.grid x y (z - 1) ≠ VELOCITY_RESERVOIR

theorem InvC6_fields {nx ny nz : ℕ} {s t : St} (hg : s.grid = t.grid)
    (h : InvC6 nx ny nz s) : InvC6 nx ny nz t := by
  unfold InvC6 at h ⊢
  rw [← hg]
  exact h

theorem applyFill_InvC6 {ctx : Ctx} {s : St} {up : Int} {x y z : ℕ}
    (hup : 1 ≤ z → up = s.grid x y (z - 1))
    (h : InvC6 ctx.nx ctx.ny ctx.nz s) :
    InvC6 ctx.nx ctx.ny ctx.nz (applyFill ctx s up x y z) := by
  intro a b c ha hb hc hc1 hco2
  rw [applyFill_grid] at hco2 ⊢
  split at hco2
  · rename_i hcond
    rw [if_pos hcond]
    by_cases heq : a = x ∧ b = y ∧ c - 1 = z
    · obtain ⟨rfl, rfl, hzz⟩ := heq
      rw [hzz]
      simp only [setCell]
      rw [if_pos (by simp)]
      decide
    · simp only [setCell]
      rw [if_neg heq]
      by_cases he3 : a = x ∧ b = y ∧ c = z
      · obtain ⟨rfl, rfl, rfl⟩ := he3
        rw [← hup hc1]
        exact hcond.2
      · have hco2s : s.grid a b c = VELOCITY_CO2 := by
          rw [show setCell s.grid x y z VELOCITY_CO2 a b c = s.grid a b c from by
            simp only [setCell]; rw [if_neg he3]] at hco2
          exact hco2
        exact h a b c ha hb hc hc1 hco2s
  · rename_i hcond
    rw [if_neg hcond]
    exact h a b c ha hb hc hc1 hco2

theorem processCell_InvC6 {ctx : Ctx} {s s2 : St} {x y z : ℕ}
    (hx : x < ctx.nx) (hy : y < ctx.ny) (hz : z < ctx.nz)
    (hproc : processCell ctx s x y z = .ok s2)
    (h : InvC6 ctx.nx ctx.ny ctx.nz s) : InvC6 ctx.nx ctx.ny ctx.nz s2 := by
  obtain ⟨hp, rfl⟩ := processCell_ok_shape hx hy hz hproc
  refine InvC6_fields rfl ?_
  refine applyFill_InvC6 ?_ (InvC6_fields rfl h)
  intro h1
  rw [markVisited_grid, if_neg (by omega)]

/-- C6: in the final grid of a successful `run` on a grid with no
pre-Filled cells, every in-bounds Filled cell at depth index `z ≥ 1`
has a non-FillableMedium (Barrier or Filled) cell directly above it:
no cell ends the run filled with fillable open space directly above
it.  (A Filled cell at `z = 0` has no upward neighbor inside the
grid.) -/
theorem claim_C6 (g : Grid) (nx ny nz : ℕ) (topo : ℕ → ℕ → Int) (depths : List Int)
    (sx sy ts : ℕ) (sf : St)
    (hg : ∀ x y z, x < nx → y < ny → z < nz → g x y z ≠ VELOCITY_CO2)
    (h : run g nx ny nz topo depths sx sy ts = .ok sf) :
    ∀ x y z, x < nx → y < ny → z < nz → 1 ≤ z → sf.grid x y z = VELOCITY_CO2 →
      sf.grid x y (z - 1) ≠ VELOCITY_RESERVOIR := by
  obtain ⟨zi, hzi, houter⟩ := run_ok_outerF h
  refine @outerF_pres (runCtx g nx ny nz depths ts) (InvC6 nx ny nz)
    ?_ ?_ _ _ _ houter ?_
  · intro s t hgr _ _ _ hP
    exact InvC6_fields hgr hP
  · intro s s2 x y z hx hy hz _ hproc hP
    exact processCell_InvC6 hx hy hz hproc hP
  · intro x y z hx hy hz h1 hco2
    exact absurd hco2 (hg x y z hx hy hz)

theorem claim_C6_witness :
    sA.grid 1 1 (3 - 1) ≠ VELOCITY_RESERVOIR :=
  claim_C6 gA 3 3 4 topoA [0, 1, 2, 3] 1 1 1 sA
    (by intro x y z hx hy hz; unfold gA; split_ifs <;> decide)
    (by rfl) 1 1 3 (by omega) (by omega) (by omega) (by omega) (by decide)

end CO2Fill

namespace CO2Fill

theorem normIdx_range_ok {n : ℕ} {i : Int} (h1 : -(n : Int) ≤ i) (h2 : i < (n : Int)) :
    ∃ k, normIdx n i = .ok k := by
  unfold normIdx
  rw [if_neg (by omega)]
  split
  · exact ⟨_, rfl⟩
  · exact ⟨_, rfl⟩

theorem normIdx_nonneg_ok {n : ℕ} {i : Int} (h1 : 0 ≤ i) (h2 : i < (n : Int)) :
    normIdx n i = .ok i.toNat := by
  unfold normIdx
  rw [if_neg (by omega), if_neg (by omega)]

theorem pyRead3_range_ok {g : Grid} {nx ny nz : ℕ} {ix iy iz : Int}
    (hx : -(nx : Int) ≤ ix ∧ ix < (nx : Int)) (hy : -(ny : Int) ≤ iy ∧ iy < (ny : Int))
    (hz : -(nz : Int) ≤ iz ∧ iz < (nz : Int)) :
    ∃ v, pyRead3 g nx ny nz ix iy iz = .ok v := by
  obtain ⟨kx, hkx⟩ := normIdx_range_ok hx.1 hx.2
  obtain ⟨ky, hky⟩ := normIdx_range_ok hy.1 hy.2
  obtain ⟨kz, hkz⟩ := normIdx_range_ok hz.1 hz.2
  refine ⟨g kx ky kz, ?_⟩
  unfold pyRead3
  rw [hkx]
  simp only [ok_bind]
  rw [hky]
  simp only [ok_bind]
  rw [hkz]
  simp only [ok_bind]
  rfl

theorem pyRead3_int_ok {g : Grid} {nx ny nz : ℕ} {ix iy iz : Int}
    (hx : 0 ≤ ix ∧ ix < (nx : Int)) (hy : 0 ≤ iy ∧ iy < (ny : Int))
    (hz : 0 ≤ iz ∧ iz < (nz : Int)) :
    pyRead3 g nx ny nz ix iy iz = .ok (g ix.toNat iy.toNat iz.toNat) := by
  unfold pyRead3
  rw [normIdx_nonneg_ok hx.1 hx.2]
  simp only [ok_bind]
  rw [normIdx_nonneg_ok hy.1 hy.2]
  simp only [ok_bind]
  rw [normIdx_nonneg_ok hz.1 hz.2]
  simp only [ok_bind]
  rfl

/-- Mirrors the spec's upward expansion rule for one offset: the
neighbor `(x+dx, y+dy, z-1)` is pushed when it is inside bounds and
FillableMedium, with priority `depthAxis[z-1]`. -/
def upPush (ctx : Ctx) (g : Grid) (x y z : ℕ) (dd : Int × Int) : Option Cand :=
  if isInside ctx ((x : Int) + dd.1) ((y : Int) + dd.2) ((z : Int) - 1) = true ∧
     g ((x : Int) + dd.1).toNat ((y : Int) + dd.2).toNat (z - 1) = VELOCITY_RESERVOIR
  then some (ctx.depths.getD (z - 1) 0,
    ((x : Int) + dd.1).toNat, ((y : Int) + dd.2).toNat, z - 1)
  else none

/-- Mirrors the spec's lateral fallback rule for one offset: the
neighbor `(x+dx, y+dy, z)` is pushed when it is inside bounds and not
Barrier, with priority `depthAxis[z]`. -/
def latPush (ctx : Ctx) (g : Grid) (x y z : ℕ) (dd : Int × Int) : Option Cand :=
  if isInside ctx ((x : Int) + dd.1) ((y : Int) + dd.2) (z : Int) = true ∧
     g ((x : Int) + dd.1).toNat ((y : Int) + dd.2).toNat z ≠ VELOCITY_CAPROCK
  then some (ctx.depths.getD z 0,
    ((x : Int) + dd.1).toNat, ((y : Int) + dd.2).toNat, z)
  else none

/-- The multiset of candidates the spec's upward rule pushes: the 9
neighbors directly above (same column plus the 8 horizontal offsets,
all at `z-1`) that are FillableMedium and in bounds. -/
def specUpPushes (ctx : Ctx) (g : Grid) (x y z : ℕ) : List Cand :=
  ((0, 0) :: SPREAD_DIRECTIONS).filterMap (upPush ctx g x y z)

/-- The multiset of candidates the spec's lateral fallback pushes: the
8 horizontal neighbors at the same `z` that are not Barrier and in
bounds. -/
def specLatPushes (ctx : Ctx) (g : Grid) (x y z : ℕ) : List Cand :=
  SPREAD_DIRECTIONS.filterMap (latPush ctx g x y z)

/-- The state after the mark-and-fill portion of processing one
candidate (everything of `processCell` except the expansion pushes). -/
def fillStep (ctx : Ctx) (s : St) (x y z : ℕ) : St :=
  applyFill ctx (markVisited s x y z)
    (s.grid x y (if z = 0 then ctx.nz - 1 else z - 1)) x y z

end CO2Fill

namespace CO2Fill

/-- Characterization of the upward expansion loop away from the upper
x/y boundary: it succeeds and pushes exactly the spec's upward
candidates (as a multiset), and the `added_above` flag records whether
any push happened. -/
theorem pushUps_char {ctx : Ctx} {g : Grid} {x y z : ℕ}
    (hx1 : x + 1 < ctx.nx) (hy1 : y + 1 < ctx.ny) (hz : z < ctx.nz)
    (hlen : ctx.nz ≤ ctx.depths.length) :
    ∀ (offs : List (Int × Int)),
      (∀ dd ∈ offs, (-1 ≤ dd.1 ∧ dd.1 ≤ 1) ∧ (-1 ≤ dd.2 ∧ dd.2 ≤ 1)) →
      ∀ (heap : List Cand) (added : Bool),
        ∃ H A, pushUps ctx g x y z offs heap added = .ok (H, A) ∧
          H.Perm (offs.filterMap (upPush ctx g x y z) ++ heap) ∧
          A = (added || !(offs.filterMap (upPush ctx g x y z)).isEmpty) := by
  intro offs
  induction offs with
  | nil =>
    intro _ heap added
    refine ⟨heap, added, rfl, by simp, by simp⟩
  | cons dd rest ih =>
    intro hoffs heap added
    obtain ⟨dx, dy⟩ := dd
    have hdd := hoffs (dx, dy) (List.mem_cons_self _ _)
    have hrest := fun d hd => hoffs d (List.mem_cons_of_mem _ hd)
    obtain ⟨v, hv⟩ : ∃ v, pyRead3 g ctx.nx ctx.ny ctx.nz ((x : Int) + dx) ((y : Int) + dy)
        ((z : Int) - 1) = .ok v := by
      refine pyRead3_range_ok ⟨?_, ?_⟩ ⟨?_, ?_⟩ ⟨?_, ?_⟩ <;> simp at hdd ⊢ <;> omega
    simp only [pushUps]
    rw [hv]
    simp only [ok_bind]
    by_cases hcond : v = VELOCITY_RESERVOIR ∧
        isInside ctx ((x : Int) + dx) ((y : Int) + dy) ((z : Int) - 1) = true
    · rw [if_pos hcond]
      have hin := hcond.2
      simp only [isInside, decide_eq_true_eq] at hin
      have hveq : v = g ((x : Int) + dx).toNat ((y : Int) + dy).toNat
          ((z : Int) - 1).toNat := by
        have := @pyRead3_int_ok g ctx.nx ctx.ny ctx.nz
          ((x : Int) + dx) ((y : Int) + dy) ((z : Int) - 1)
          ⟨hin.1, hin.2.1⟩ ⟨hin.2.2.1, hin.2.2.2.1⟩ ⟨hin.2.2.2.2.1, hin.2.2.2.2.2⟩
        rw [hv] at this
        exact (Except.ok.injEq _ _ ▸ this)
      have hztn : ((z : Int) - 1).toNat = z - 1 := by omega
      have hz1 : 1 ≤ z := by omega
      have hcast : (z : Int) - 1 = ((z - 1 : ℕ) : Int) := by omega
      rw [hcast, pyRead1_nat (by omega : z - 1 < ctx.depths.length)]
      simp only [ok_bind]
      obtain ⟨H, A, hP, hPerm, hA⟩ := ih hrest
        (insertSorted (ctx.depths.getD (z - 1) 0,
          ((x : Int) + dx).toNat, ((y : Int) + dy).toNat, z - 1) heap) true
      have hup : upPush ctx g x y z (dx, dy) = some (ctx.depths.getD (z - 1) 0,
          ((x : Int) + dx).toNat, ((y : Int) + dy).toNat, z - 1) := by
        unfold upPush
        rw [if_pos ⟨hcond.2, by rw [← hztn, ← hveq]; exact hcond.1⟩]
      refine ⟨H, A, hP, ?_, ?_⟩
      · rw [List.filterMap_cons, hup]
        refine hPerm.trans ?_
        refine (List.Perm.append_left _ (insertSorted_perm _ _)).trans ?_
        exact List.perm_middle
      · rw [hA, List.filterMap_cons, hup]
        simp
    · rw [if_neg hcond]
      have hup : upPush ctx g x y z (dx, dy) = none := by
        unfold upPush
        rw [if_neg]
        intro hc
        refine hcond ⟨?_, hc.1⟩
        have hin := hc.1
        simp only [isInside, decide_eq_true_eq] at hin
        have hveq : v = g ((x : Int) + dx).toNat ((y : Int) + dy).toNat
            ((z : Int) - 1).toNat := by
          have := @pyRead3_int_ok g ctx.nx ctx.ny ctx.nz
            ((x : Int) + dx) ((y : Int) + dy) ((z : Int) - 1)
            ⟨hin.1, hin.2.1⟩ ⟨hin.2.2.1, hin.2.2.2.1⟩ ⟨hin.2.2.2.2.1, hin.2.2.2.2.2⟩
          rw [hv] at this
          exact (Except.ok.injEq _ _ ▸ this)
        have hztn : ((z : Int) - 1).toNat = z - 1 := by
          have := hin.2.2.2.2.1
          omega
        rw [hveq, hztn]
        exact hc.2
      obtain ⟨H, A, hP, hPerm, hA⟩ := ih hrest heap added
      refine ⟨H, A, hP, ?_, ?_⟩
      · rw [List.filterMap_cons, hup]
        exact hPerm
      · rw [hA, List.filterMap_cons, hup]

end CO2Fill

namespace CO2Fill

/-- Characterization of the lateral expansion loop away from the upper
x/y boundary: it succeeds and pushes exactly the spec's lateral
candidates (as a multiset). -/
theorem pushLats_char {ctx : Ctx} {g : Grid} {x y z : ℕ}
    (hx1 : x + 1 < ctx.nx) (hy1 : y + 1 < ctx.ny) (hz : z < ctx.nz)
    (hlen : ctx.nz ≤ ctx.depths.length) :
    ∀ (offs : List (Int × Int)),
      (∀ dd ∈ offs, (-1 ≤ dd.1 ∧ dd.1 ≤ 1) ∧ (-1 ≤ dd.2 ∧ dd.2 ≤ 1)) →
      ∀ (heap : List Cand),
        ∃ H, pushLats ctx g x y z offs heap = .ok H ∧
          H.Perm (offs.filterMap (latPush ctx g x y z) ++ heap) := by
  intro offs
  induction offs with
  | nil =>
    intro _ heap
    refine ⟨heap, rfl, by simp⟩
  | cons dd rest ih =>
    intro hoffs heap
    obtain ⟨dx, dy⟩ := dd
    have hdd := hoffs (dx, dy) (List.mem_cons_self _ _)
    have hrest := fun d hd => hoffs d (List.mem_cons_of_mem _ hd)
    obtain ⟨v, hv⟩ : ∃ v, pyRead3 g ctx.nx ctx.ny ctx.nz ((x : Int) + dx) ((y : Int) + dy)
        (z : Int) = .ok v := by
      refine pyRead3_range_ok ⟨?_, ?_⟩ ⟨?_, ?_⟩ ⟨?_, ?_⟩ <;> simp at hdd ⊢ <;> omega
    simp only [pushLats]
    rw [hv]
    simp only [ok_bind]
    by_cases hcond : v ≠ VELOCITY_CAPROCK ∧
        isInside ctx ((x : Int) + dx) ((y : Int) + dy) (z : Int) = true
    · rw [if_pos hcond]
      have hin := hcond.2
      simp only [isInside, decide_eq_true_eq] at hin
      have hveq : v = g ((x : Int) + dx).toNat ((y : Int) + dy).toNat (z : Int).toNat := by
        have := @pyRead3_int_ok g ctx.nx ctx.ny ctx.nz
          ((x : Int) + dx) ((y : Int) + dy) ((z : Int))
          ⟨hin.1, hin.2.1⟩ ⟨hin.2.2.1, hin.2.2.2.1⟩ ⟨hin.2.2.2.2.1, hin.2.2.2.2.2⟩
        rw [hv] at this
        exact (Except.ok.injEq _ _ ▸ this)
      have hztn : ((z : ℕ) : Int).toNat = z := by omega
      rw [pyRead1_nat (by omega : z < ctx.depths.length)]
      simp only [ok_bind]
      obtain ⟨H, hP, hPerm⟩ := ih hrest
        (insertSorted (ctx.depths.getD z 0,
          ((x : Int) + dx).toNat, ((y : Int) + dy).toNat, z) heap)
      have hlp : latPush ctx g x y z (dx, dy) = some (ctx.depths.getD z 0,
          ((x : Int) + dx).toNat, ((y : Int) + dy).toNat, z) := by
        unfold latPush
        rw [if_pos ⟨hcond.2, by rw [← hztn, ← hveq]; exact hcond.1⟩]
      refine ⟨H, hP, ?_⟩
      rw [List.filterMap_cons, hlp]
      refine hPerm.trans ?_
      refine (List.Perm.append_left _ (insertSorted_perm _ _)).trans ?_
      exact List.perm_middle
    · rw [if_neg hcond]
      have hlp : latPush ctx g x y z (dx, dy) = none := by
        unfold latPush
        rw [if_neg]
        intro hc
        refine hcond ⟨?_, hc.1⟩
        have hin := hc.1
        simp only [isInside, decide_eq_true_eq] at hin
        have hveq : v = g ((x : Int) + dx).toNat ((y : Int) + dy).toNat (z : Int).toNat := by
          have := @pyRead3_int_ok g ctx.nx ctx.ny ctx.nz
            ((x : Int) + dx) ((y : Int) + dy) ((z : Int))
            ⟨hin.1, hin.2.1⟩ ⟨hin.2.2.1, hin.2.2.2.1⟩ ⟨hin.2.2.2.2.1, hin.2.2.2.2.2⟩
          rw [hv] at this
          exact (Except.ok.injEq _ _ ▸ this)
        have hztn : ((z : ℕ) : Int).toNat = z := by omega
        rw [hveq, hztn]
        exact hc.2
      obtain ⟨H, hP, hPerm⟩ := ih hrest heap
      refine ⟨H, hP, ?_⟩
      rw [List.filterMap_cons, hlp]
      exact hPerm

end CO2Fill

namespace CO2Fill

theorem fillStep_heap (ctx : Ctx) (s : St) (x y z : ℕ) :
    (fillStep ctx s x y z).heap = s.heap := by
  unfold fillStep
  rw [applyFill_heap, markVisited_heap]

/-- C3 counterexample: a processed candidate at the upper x boundary
raises `IndexError` instead of pushing its valid upward neighbors.
Here `(2, 1, 2)` is processed in a 3 by 3 by 4 grid: the offset
`(-1, 0)` sees the in-bounds FillableMedium neighbor `(1, 1, 1)`
(which the claim says is pushed), but the next offset `(1, 0)` reads
`injection_matrix[3, 1, 1]` before the bounds test and the whole
processing aborts, so no `ok` state (and no heap) is produced at
all. -/
theorem claim_C3_counterexample :
    errOf (processCell ctxW (initSt gA 1 1 3) 2 1 2) = some .index ∧
    gA 1 1 1 = VELOCITY_RESERVOIR ∧ ((1 : ℕ) < 3 ∧ (1 : ℕ) < 3 ∧ (1 : ℕ) < 4) := by
  refine ⟨by decide, by decide, by decide, by decide⟩

/-- C3 (amended): for every processed candidate that is NOT on the
upper x/y boundary (`x + 1 < nx` and `y + 1 < ny`; a boundary candidate
instead raises `IndexError`, see the counterexample), and with the
depth axis covering the grid (`nz ≤ depths.length`), processing
succeeds and the resulting scheduler is exactly (as a multiset) the old
scheduler plus the spec's upward pushes — the 9 neighbors at `z-1` that
are FillableMedium and in bounds, at priority `depthAxis[z-1]` — plus,
only if no upward neighbor was pushed, the spec's lateral pushes — the
8 horizontal neighbors at the same `z` that are not Barrier and in
bounds, at priority `depthAxis[z]` (so lateral candidates may include
already-Filled cells).  All pushes read the grid after the fill step
(`fillStep`). -/
theorem claim_C3 (ctx : Ctx) (s : St) (x y z : ℕ)
    (hx1 : x + 1 < ctx.nx) (hy1 : y + 1 < ctx.ny) (hz : z < ctx.nz)
    (hlen : ctx.nz ≤ ctx.depths.length) :
    errOf (processCell ctx s x y z) = none ∧
    (∀ s2, processCell ctx s x y z = .ok s2 →
      s2.heap.Perm
        ((specUpPushes ctx (fillStep ctx s x y z).grid x y z ++
          (if specUpPushes ctx (fillStep ctx s x y z).grid x y z = []
           then specLatPushes ctx (fillStep ctx s x y z).grid x y z else [])) ++ s.heap)) := by
  have hx : x < ctx.nx := by omega
  have hy : y < ctx.ny := by omega
  have hkey : ∃ s2, processCell ctx s x y z = .ok s2 ∧
      s2.heap.Perm
        ((specUpPushes ctx (fillStep ctx s x y z).grid x y z ++
          (if specUpPushes ctx (fillStep ctx s x y z).grid x y z = []
           then specLatPushes ctx (fillStep ctx s x y z).grid x y z else [])) ++ s.heap) := by
    unfold processCell
    dsimp only
    rw [markVisited_grid, pyRead3_up hx hy hz]
    simp only [ok_bind]
    rw [show applyFill ctx (markVisited s x y z)
        (s.grid x y (if z = 0 then ctx.nz - 1 else z - 1)) x y z = fillStep ctx s x y z
      from rfl]
    obtain ⟨H, A, hPU, hPermU, hA⟩ :=
      pushUps_char (g := (fillStep ctx s x y z).grid) hx1 hy1 hz hlen
        ((0, 0) :: SPREAD_DIRECTIONS) (by decide) (fillStep ctx s x y z).heap false
    rw [hPU]
    simp only [ok_bind]
    rw [hA, Bool.false_or]
    by_cases hemp : specUpPushes ctx (fillStep ctx s x y z).grid x y z = []
    · have hie : (((0, 0) :: SPREAD_DIRECTIONS).filterMap
          (upPush ctx (fillStep ctx s x y z).grid x y z)).isEmpty = true := by
        unfold specUpPushes at hemp
        rw [hemp]
        rfl
      rw [hie]
      simp only [Bool.not_true, Bool.false_eq_true, if_false]
      obtain ⟨H2, hPL, hPermL⟩ :=
        pushLats_char (g := (fillStep ctx s x y z).grid) hx1 hy1 hz hlen
          SPREAD_DIRECTIONS (by decide) H
      rw [hPL]
      simp only [ok_bind]
      refine ⟨_, rfl, ?_⟩
      show H2.Perm _
      rw [hemp]
      simp only [if_pos rfl, List.nil_append]
      refine hPermL.trans ?_
      refine List.Perm.append_left _ ?_
      refine hPermU.trans ?_
      unfold specUpPushes at hemp
      rw [hemp, fillStep_heap]
      simp
    · have hie : (((0, 0) :: SPREAD_DIRECTIONS).filterMap
          (upPush ctx (fillStep ctx s x y z).grid x y z)).isEmpty = false := by
        unfold specUpPushes at hemp
        cases hfil : ((0, 0) :: SPREAD_DIRECTIONS).filterMap
            (upPush ctx (fillStep ctx s x y z).grid x y z) with
        | nil => exact absurd hfil hemp
        | cons a l => rfl
      rw [hie]
      simp only [Bool.not_false, if_true]
      refine ⟨_, rfl, ?_⟩
      show H.Perm _
      rw [if_neg hemp]
      simp only [List.append_nil]
      refine hPermU.trans ?_
      rw [fillStep_heap]
      exact List.Perm.refl _
  obtain ⟨s2, hP, hPerm⟩ := hkey
  constructor
  · rw [hP]
    rfl
  · intro s3 hP3
    rw [hP] at hP3
    simp only [Except.ok.injEq] at hP3
    rw [← hP3]
    exact hPerm

theorem claim_C3_witness :
    errOf (processCell ctxW (initSt gA 1 1 3) 1 1 3) = none :=
  (claim_C3 ctxW (initSt gA 1 1 3) 1 1 3 (by decide) (by decide) (by decide) (by decide)).1

end CO2Fill
